import Mathlib

set_option maxHeartbeats 1000000

namespace RustCidr

/-- `Ipv4Cidr` from `src/ipv4.rs`: a CIDR block given by its first address
`net` and the number `size` of free low-order bits (`size = 32 - mask`).
The Rust fields are `net : u32` and `size : u8`; we use `Nat` and carry
explicit bounds (`net < 2^32`, `size ≤ 32`) in hypotheses. -/
structure Ipv4Cidr where
  net : Nat
  size : Nat
deriving DecidableEq, Repr

namespace Ipv4Cidr

/-- The `Ok` branch of `Ipv4Cidr::new` (src/ipv4.rs lines 37-48): if
`mask == 0` the base is forced to `0`; if `0 < mask < 32` the low
`32 - mask` bits are cleared by a shift down and back up; if `mask == 32`
the address is kept as is.  `size = 32 - mask`. -/
def make (net mask : Nat) : Ipv4Cidr :=
  if mask = 0 then { net := 0, size := 32 }
  else if mask < 32 then
    { net := (net >>> (32 - mask)) <<< (32 - mask), size := 32 - mask }
  else { net := net, size := 32 - mask }

/-- `Ipv4Cidr::new`: fails when `mask > 32`. -/
def new (net mask : Nat) : Option Ipv4Cidr :=
  if mask > 32 then none else some (make net mask)

/-- `Ipv4Cidr::to_range` (lines 90-95): the special `size == 32` branch
returns `(0, u32::MAX)`; otherwise `(net, net + (2^size - 1))`. -/
def toRange (c : Ipv4Cidr) : Nat × Nat :=
  if c.size = 32 then (0, 2 ^ 32 - 1)
  else (c.net, c.net + (2 ^ c.size - 1))

/-- `Ipv4Cidr::contains_cidr` (lines 79-87). -/
def containsCidr (a b : Ipv4Cidr) : Bool :=
  if a.size = 32 then true
  else if a.size < b.size then false
  else a.net >>> a.size == b.net >>> a.size

end Ipv4Cidr

/-- The inner `BTreeMap<u32, Ipv4Cidr>` of `Ipv4CidrList`, modelled as its
sorted (strictly ascending keys) list of entries; `BTreeMap` equality is
equality of these entry sequences. -/
abbrev CidrMap := List (Nat × Ipv4Cidr)

namespace Ipv4CidrList

/-- `BTreeMap::get`. -/
def kfind (m : CidrMap) (k : Nat) : Option Ipv4Cidr :=
  match m with
  | [] => none
  | (k', v) :: rest => if k = k' then some v else kfind rest k

/-- `BTreeMap::insert` on the sorted entry list: replaces an existing
binding of the key, otherwise inserts at the ordered position. -/
def kinsert (m : CidrMap) (k : Nat) (v : Ipv4Cidr) : CidrMap :=
  match m with
  | [] => [(k, v)]
  | (k', v') :: rest =>
    if k < k' then (k, v) :: (k', v') :: rest
    else if k = k' then (k, v) :: rest
    else (k', v') :: kinsert rest k v

/-- `BTreeMap::remove` on the sorted entry list. -/
def kerase (m : CidrMap) (k : Nat) : CidrMap :=
  match m with
  | [] => []
  | (k', v) :: rest => if k = k' then rest else (k', v) :: kerase rest k

/-- The inner `while net & 1 == 0` loop of `Ipv4CidrList::search_parent`
(lines 267-273): shift out zero bits, counting the level up, and give up
when the level reaches 32.  `size` is a `u8` that every reachable call
keeps below 32, so the guard `32 ≤ size + 1` coincides with the source's
`size == 32` test there. -/
def spSkip (net size : Nat) : Option (Nat × Nat) :=
  if net &&& 1 = 0 then
    if 32 ≤ size + 1 then none
    else spSkip (net >>> 1) (size + 1)
  else some (net, size)
termination_by 32 - size
decreasing_by omega

theorem spSkip_bounds (net size : Nat) :
    ∀ n s, size < 32 → spSkip net size = some (n, s) → size ≤ s ∧ s < 32 := by
  induction net, size using spSkip.induct with
  | case1 net size h1 h2 =>
      intro n s hlt heq
      rw [spSkip] at heq
      simp [h1, h2] at heq
  | case2 net size h1 h2 ih =>
      intro n s hlt heq
      rw [spSkip] at heq
      simp only [h1, if_pos rfl, if_neg h2] at heq
      have := ih n s (by omega) heq
      omega
  | case3 net size h1 =>
      intro n s hlt heq
      rw [spSkip] at heq
      simp only [if_neg h1] at heq
      obtain ⟨rfl, rfl⟩ := Prod.mk.injEq .. ▸ Option.some.injEq .. ▸ heq
      omega

/-- The main loop of `Ipv4CidrList::search_parent` (lines 257-276): probe
the map at the current candidate base; on a hit with a large enough size
return it, otherwise climb to the base of the next enclosing block whose
base differs.  As for `spSkip`, `size` is a `u8` kept `≤ 32` in every
reachable state, so `32 ≤ size` coincides with the source's `size == 32`. -/
def searchParentGo (m : CidrMap) (net size : Nat) : Option Ipv4Cidr :=
  match kfind m net with
  | some v =>
    if size ≤ v.size then some v
    else
      if 32 ≤ size then none
      else match hsk : spSkip (net >>> size) size with
        | none => none
        | some (n, s) => searchParentGo m ((n - 1) <<< s) (s + 1)
  | none =>
    if 32 ≤ size then none
    else match hsk : spSkip (net >>> size) size with
      | none => none
      | some (n, s) => searchParentGo m ((n - 1) <<< s) (s + 1)
termination_by 32 - size
decreasing_by
  all_goals
    have := spSkip_bounds (net >>> size) size n s (by omega) hsk
    omega

/-- `Ipv4CidrList::search_parent` (lines 254-277). -/
def searchParent (m : CidrMap) (c : Ipv4Cidr) : Option Ipv4Cidr :=
  searchParentGo m c.net c.size

/-- `Ipv4CidrList::contains_cidr` (lines 249-251). -/
def containsCidr (m : CidrMap) (c : Ipv4Cidr) : Bool :=
  (searchParent m c).isSome

/-- Fuel-indexed mirror of `spSkip` (structurally recursive, so closed
instances compute): `none` when the fuel runs out first. -/
def spSkipF : Nat → Nat → Nat → Option (Nat × Nat)
  | 0, _, _ => none
  | fuel + 1, net, size =>
    if net &&& 1 = 0 then
      if 32 ≤ size + 1 then none
      else spSkipF fuel (net >>> 1) (size + 1)
    else some (net, size)

/-- Fuel-indexed mirror of `searchParentGo`, counting the iterations of the
source's outer `loop`: `none` when the fuel runs out first, otherwise
`some` of the loop's answer.  Used to bound the number of climb steps. -/
def spGoFuel (fuel : Nat) (m : CidrMap) (net size : Nat) :
    Option (Option Ipv4Cidr) :=
  match fuel with
  | 0 => none
  | fuel + 1 =>
    match kfind m net with
    | some v =>
      if size ≤ v.size then some (some v)
      else
        if 32 ≤ size then some none
        else match spSkipF 33 (net >>> size) size with
          | none => some none
          | some (n, s) => spGoFuel fuel m ((n - 1) <<< s) (s + 1)
    | none =>
      if 32 ≤ size then some none
      else match spSkipF 33 (net >>> size) size with
        | none => some none
        | some (n, s) => spGoFuel fuel m ((n - 1) <<< s) (s + 1)

/-- `Ipv4CidrList::delete_in_range` (lines 279-292): collect the keys of
the entries in `range(f..=t)` whose block is contained in `cidr`, then
remove them; report whether any key was collected. -/
def deleteInRange (m : CidrMap) (c : Ipv4Cidr) : Bool × CidrMap :=
  let f := c.toRange.1
  let t := c.toRange.2
  let rem := (m.filter fun p => f ≤ p.1 && p.1 ≤ t && c.containsCidr p.2).map Prod.fst
  (!rem.isEmpty, rem.foldl kerase m)

/-- The sibling `pair` base address computed by `Ipv4CidrList::insert`
(lines 303-308): flip the block index bit right above `size`. -/
def pairKey (c : Ipv4Cidr) : Nat :=
  if (c.net >>> c.size) &&& 1 = 0 then ((c.net >>> c.size) + 1) <<< c.size
  else ((c.net >>> c.size) - 1) <<< c.size

/-- The sibling-merge loop of `Ipv4CidrList::insert` (lines 300-319). -/
def insertLoop (m : CidrMap) (c : Ipv4Cidr) : CidrMap :=
  if c.size < 32 then
    match kfind m (pairKey c) with
    | some v =>
      if v.size = c.size then
        insertLoop (kerase m (pairKey c)) (Ipv4Cidr.make (pairKey c) (31 - c.size))
      else kinsert m c.net c
    | none => kinsert m c.net c
  else kinsert m c.net c
termination_by 32 - c.size
decreasing_by
  simp only [Ipv4Cidr.make]
  split
  · simp only
    omega
  · split
    · simp only
      omega
    · omega

/-- Fuel-indexed mirror of the `insert` merge loop (structurally
recursive, so closed instances compute). -/
def insertLoopF : Nat → CidrMap → Ipv4Cidr → Option CidrMap
  | 0, _, _ => none
  | fuel + 1, m, c =>
    if c.size < 32 then
      match kfind m (pairKey c) with
      | some v =>
        if v.size = c.size then
          insertLoopF fuel (kerase m (pairKey c))
            (Ipv4Cidr.make (pairKey c) (31 - c.size))
        else some (kinsert m c.net c)
      | none => some (kinsert m c.net c)
    else some (kinsert m c.net c)

/-- `Ipv4CidrList::insert` (lines 295-320).  The boolean result of
`delete_in_range` is discarded by the source. -/
def insert (m : CidrMap) (c : Ipv4Cidr) : Bool × CidrMap :=
  let m1 := (deleteInRange m c).2
  if containsCidr m1 c then (false, m1)
  else (true, insertLoop m1 c)

/-- The `while f != t` prefix-level loop of `build` inside
`Ipv4CidrList::from_range` (lines 187-191): the number of right shifts
until the two endpoints coincide. -/
def commonLevel (f t : Nat) : Nat :=
  if f = t then 0 else commonLevel (f >>> 1) (t >>> 1) + 1
termination_by f + t
decreasing_by
  have hf : f >>> 1 = f / 2 := Nat.shiftRight_one f
  have ht : t >>> 1 = t / 2 := Nat.shiftRight_one t
  rw [hf, ht]
  omega

/-- The recursive `build` of `Ipv4CidrList::from_range` (lines 183-201),
with explicit recursion fuel (the source recursion diverges for
`from > to`, a case `from_range` never reaches; fuel 33 is proven
sufficient for every `from ≤ to` below). -/
def buildFuel : Nat → Nat → Nat → CidrMap → Option CidrMap
  | 0, _, _, _ => none
  | fuel + 1, lo, hi, l =>
    let m := commonLevel lo hi
    let f := lo >>> m
    let block := Ipv4Cidr.make (if m = 32 then 0 else f <<< m) (32 - m)
    if block.toRange = (lo, hi) then some (insert l block).2
    else
      let mid := ((f <<< 1) + 1) <<< (m - 1)
      match buildFuel fuel lo (mid - 1) l with
      | none => none
      | some l1 => buildFuel fuel mid hi l1

/-- `Ipv4CidrList::from_range` (lines 178-204). -/
def fromRange (lo hi : Nat) : CidrMap :=
  if lo > hi then [] else (buildFuel 33 lo hi []).getD []

/-- The coalescing tail loop of `Ipv4CidrList::to_range` (lines 231-240).
Note the source does not reset the accumulator after pushing it. -/
def toRangeGo (f : Nat × Nat) (rest : CidrMap) : List (Nat × Nat) :=
  match rest with
  | [] => [f]
  | (_, c) :: rs =>
    let t := c.toRange
    if t.1 = f.2 + 1 then toRangeGo (f.1, t.2) rs
    else f :: toRangeGo f rs

/-- `Ipv4CidrList::to_range` (lines 222-241), with addresses kept as the
underlying `u32` numbers. -/
def toRangeList (m : CidrMap) : List (Nat × Nat) :=
  match m with
  | [] => []
  | (_, c) :: rest => toRangeGo c.toRange rest

/-- `Ipv4CidrList::remove` (lines 323-349).  The `add` set holds at most
the two residual ranges; `HashSet` iteration order is arbitrary in the
source, fixed here as low range first. -/
def remove (m : CidrMap) (c : Ipv4Cidr) : Bool × CidrMap :=
  let (chg, m1) := deleteInRange m c
  if chg then (true, m1)
  else
    match searchParent m1 c with
    | none => (true, m1)
    | some v =>
      if v = c then (false, m1)
      else
        let m2 := kerase m1 v.net
        let a2 := c.toRange.1
        let a3 := c.toRange.2
        let a1 := v.toRange.1
        let a4 := v.toRange.2
        let add := (if a1 < a2 then [(a1, a2 - 1)] else []) ++
                   (if a3 < a4 then [(a3 + 1, a4)] else [])
        (true, add.foldl (fun acc r => (fromRange r.1 r.2).foldl (fun a p => (insert a p.2).2) acc) m2)

end Ipv4CidrList

/-! ## Semantic layer: validity, address intervals, containment algebra -/

/-- A block as produced by `Ipv4Cidr::new`: `size ≤ 32`, a `u32` base, and
the base aligned to the block size (low `size` bits zero). -/
def ValidB (c : Ipv4Cidr) : Prop :=
  c.size ≤ 32 ∧ c.net < 2 ^ 32 ∧ c.net % 2 ^ c.size = 0

instance (c : Ipv4Cidr) : Decidable (ValidB c) := by
  unfold ValidB; infer_instance

/-- First address of the block, as reported by `to_range`. -/
def loR (c : Ipv4Cidr) : Nat := c.toRange.1

/-- Last address of the block, as reported by `to_range`. -/
def hiR (c : Ipv4Cidr) : Nat := c.toRange.2

/-- The address `a` lies in the block `c`. -/
def memA (c : Ipv4Cidr) (a : Nat) : Prop := loR c ≤ a ∧ a ≤ hiR c

instance (c : Ipv4Cidr) (a : Nat) : Decidable (memA c a) := by
  unfold memA; infer_instance

/-- Two same-size blocks that are siblings of one common parent block
(invariant 1 forbids such a pair of members). -/
def Mergeable (u v : Ipv4Cidr) : Prop :=
  u.size = v.size ∧ u.size < 32 ∧ u.net ≠ v.net ∧
    u.net >>> (u.size + 1) = v.net >>> (u.size + 1)

instance (u v : Ipv4Cidr) : Decidable (Mergeable u v) := by
  unfold Mergeable; infer_instance

/-- The parent block one level above `c`, as built by the merge step of
`insert` (via `Ipv4Cidr::new(pair, 31 - size)`). -/
def parentB (c : Ipv4Cidr) : Ipv4Cidr := Ipv4Cidr.make c.net (31 - c.size)

/-- The sibling of `c` as a block: the same size, based at `pairKey`. -/
def sibB (c : Ipv4Cidr) : Ipv4Cidr :=
  { net := Ipv4CidrList.pairKey c, size := c.size }

/-- A map entry is stored under its own base address and is a valid block
(invariant 3, the per-entry part). -/
def EntryOk (p : Nat × Ipv4Cidr) : Prop := ValidB p.2 ∧ p.1 = p.2.net

instance (p : Nat × Ipv4Cidr) : Decidable (EntryOk p) := by
  unfold EntryOk; infer_instance

/-- Entry `p` lies strictly before entry `q`: its whole address interval
ends before the interval of `q` starts (invariants 2 and 3). -/
def Below (p q : Nat × Ipv4Cidr) : Prop := hiR p.2 < loR q.2

instance (p q : Nat × Ipv4Cidr) : Decidable (Below p q) := by
  unfold Below; infer_instance

/-- The three `Ipv4CidrList` invariants: every entry is canonical and
valid; entries are strictly ordered and pairwise disjoint; no two member
blocks are mergeable siblings. -/
def Inv (m : CidrMap) : Prop :=
  (∀ p ∈ m, EntryOk p) ∧ m.Pairwise Below ∧
    m.Pairwise fun p q => ¬ Mergeable p.2 q.2

instance (m : CidrMap) : Decidable (Inv m) := by
  unfold Inv; infer_instance

/-- Some member block of `m` contains the address `a`. -/
def covers (m : CidrMap) (a : Nat) : Prop := ∃ p ∈ m, memA p.2 a

/-! ### Arithmetic toolbox -/

theorem shiftr_eq (x k : Nat) : x >>> k = x / 2 ^ k := Nat.shiftRight_eq_div_pow x k

theorem shiftl_eq (x k : Nat) : x <<< k = x * 2 ^ k := Nat.shiftLeft_eq x k

theorem and1_eq (x : Nat) : x &&& 1 = x % 2 := Nat.and_one_is_mod x

theorem pow_pos2 (k : Nat) : 0 < 2 ^ k := Nat.pos_pow_of_pos k (by omega)

theorem div_eq_iff_bounds {e a q : Nat} (he : 0 < e) :
    a / e = q ↔ q * e ≤ a ∧ a < q * e + e := by
  constructor
  · rintro rfl
    have h1 := Nat.div_add_mod a e
    rw [Nat.mul_comm] at h1
    have h2 := Nat.mod_lt a he
    omega
  · rintro ⟨h1, h2⟩
    refine Nat.div_eq_of_lt_le h1 ?_
    calc a < q * e + e := h2
      _ = (q + 1) * e := by ring

/-- If `d` divides both `a` and `b` and `a < b` then a whole extra `d`
still fits. -/
theorem dvd_lt_add_le {d a b : Nat} (ha : d ∣ a) (hb : d ∣ b) (h : a < b) :
    a + d ≤ b := by
  obtain ⟨x, rfl⟩ := ha
  obtain ⟨y, rfl⟩ := hb
  have hd : 0 < d := by
    rcases Nat.eq_zero_or_pos d with h0 | h0
    · subst h0; omega
    · exact h0
  have hxy : x < y := by
    by_contra hc
    exact absurd (Nat.mul_le_mul_left d (by omega : y ≤ x)) (by omega)
  calc d * x + d = d * (x + 1) := by ring
    _ ≤ d * y := Nat.mul_le_mul_left d (by omega)

/-- An aligned interval sits inside a single bucket at any coarser level. -/
theorem interval_same_bucket {v : Ipv4Cidr} {t a : Nat} (hal : v.net % 2 ^ v.size = 0)
    (hts : v.size ≤ t) (h1 : v.net ≤ a) (h2 : a ≤ v.net + (2 ^ v.size - 1)) :
    a / 2 ^ t = v.net / 2 ^ t := by
  have he : (0:Nat) < 2 ^ t := pow_pos2 t
  have hev : (0:Nat) < 2 ^ v.size := pow_pos2 v.size
  rw [div_eq_iff_bounds he]
  have hmd := Nat.div_add_mod v.net (2 ^ t)
  rw [Nat.mul_comm] at hmd
  -- the distance from v.net to the next 2^t boundary is at least 2^v.size
  have hmod : v.net % 2 ^ t + 2 ^ v.size ≤ 2 ^ t := by
    have hdvd : 2 ^ v.size ∣ v.net % 2 ^ t := by
      have ha : 2 ^ v.size ∣ v.net := Nat.dvd_of_mod_eq_zero hal
      have hb : (2:Nat) ^ v.size ∣ 2 ^ t := pow_dvd_pow 2 hts
      exact (Nat.dvd_mod_iff hb).mpr ha
    have hlt : v.net % 2 ^ t < 2 ^ t := Nat.mod_lt _ he
    exact dvd_lt_add_le hdvd (pow_dvd_pow 2 hts) hlt
  omega

/-! ### Block lemmas -/

theorem ValidB.size_le {c : Ipv4Cidr} (h : ValidB c) : c.size ≤ 32 := h.1

theorem ValidB.net_lt {c : Ipv4Cidr} (h : ValidB c) : c.net < 2 ^ 32 := h.2.1

theorem ValidB.aligned {c : Ipv4Cidr} (h : ValidB c) : c.net % 2 ^ c.size = 0 := h.2.2

/-- A valid size-32 block is the universal block based at 0. -/
theorem ValidB.net_eq_zero {c : Ipv4Cidr} (h : ValidB c) (h32 : c.size = 32) :
    c.net = 0 := by
  have := h.aligned
  rw [h32] at this
  have := Nat.mod_eq_of_lt h.net_lt
  omega

/-- For valid blocks the `size == 32` special case of `to_range` agrees
with the generic formula. -/
theorem toRange_eq {c : Ipv4Cidr} (h : ValidB c) :
    c.toRange = (c.net, c.net + (2 ^ c.size - 1)) := by
  unfold Ipv4Cidr.toRange
  split
  · rename_i h32
    rw [h.net_eq_zero h32, h32]
    simp
  · rfl

theorem loR_eq {c : Ipv4Cidr} (h : ValidB c) : loR c = c.net := by
  unfold loR; rw [toRange_eq h]

theorem hiR_eq {c : Ipv4Cidr} (h : ValidB c) : hiR c = c.net + (2 ^ c.size - 1) := by
  unfold hiR; rw [toRange_eq h]

theorem loR_le_hiR (c : Ipv4Cidr) : loR c ≤ hiR c := by
  unfold loR hiR Ipv4Cidr.toRange
  split <;> simp

/-- The whole block fits under `2^32`. -/
theorem hiR_lt_top {c : Ipv4Cidr} (h : ValidB c) : hiR c < 2 ^ 32 := by
  rw [hiR_eq h]
  have hdvd : 2 ^ c.size ∣ c.net := Nat.dvd_of_mod_eq_zero h.aligned
  have h32 : (2:Nat) ^ c.size ∣ 2 ^ 32 := pow_dvd_pow 2 h.size_le
  have := dvd_lt_add_le hdvd h32 h.net_lt
  have := pow_pos2 c.size
  omega

theorem memA_iff {c : Ipv4Cidr} (h : ValidB c) (a : Nat) :
    memA c a ↔ a / 2 ^ c.size = c.net / 2 ^ c.size := by
  unfold memA
  rw [loR_eq h, hiR_eq h]
  have he : (0:Nat) < 2 ^ c.size := pow_pos2 c.size
  constructor
  · intro ⟨h1, h2⟩
    exact interval_same_bucket h.aligned (le_refl _) h1 h2
  · intro heq
    rw [div_eq_iff_bounds he] at heq
    have hq : c.net / 2 ^ c.size * 2 ^ c.size = c.net :=
      Nat.div_mul_cancel (Nat.dvd_of_mod_eq_zero h.aligned)
    omega

theorem memA_loR {c : Ipv4Cidr} : memA c (loR c) := ⟨le_refl _, loR_le_hiR c⟩

theorem memA_hiR {c : Ipv4Cidr} : memA c (hiR c) := ⟨loR_le_hiR c, le_refl _⟩

/-- `Ipv4Cidr::contains_cidr` is exactly interval containment, for valid
blocks. -/
theorem contains_iff {u v : Ipv4Cidr} (hu : ValidB u) (hv : ValidB v) :
    u.containsCidr v = true ↔ loR u ≤ loR v ∧ hiR v ≤ hiR u := by
  rw [loR_eq hu, loR_eq hv, hiR_eq hu, hiR_eq hv]
  unfold Ipv4Cidr.containsCidr
  have hev : (0:Nat) < 2 ^ v.size := pow_pos2 v.size
  have heu : (0:Nat) < 2 ^ u.size := pow_pos2 u.size
  split
  · rename_i h32
    have h0 := hu.net_eq_zero h32
    have h1 := hiR_lt_top hv
    rw [hiR_eq hv] at h1
    have h2 : (1:Nat) ≤ 2 ^ 32 := Nat.one_le_two_pow
    constructor
    · intro _
      rw [h0, h32]
      omega
    · intro _
      rfl
  · rename_i h32
    split
    · rename_i hlt
      constructor
      · intro h
        simp at h
      · intro ⟨h1, h2⟩
        exfalso
        have e1 : (2:Nat) ^ u.size < 2 ^ v.size := Nat.pow_lt_pow_right (by omega) hlt
        omega
    · rename_i hge
      rw [shiftr_eq, shiftr_eq, beq_iff_eq]
      have hvs : v.size ≤ u.size := by omega
      have hdvd : (2:Nat) ^ v.size ∣ 2 ^ u.size := pow_dvd_pow 2 hvs
      have hqu : u.net / 2 ^ u.size * 2 ^ u.size = u.net :=
        Nat.div_mul_cancel (Nat.dvd_of_mod_eq_zero hu.aligned)
      have hevu : (2:Nat) ^ v.size ≤ 2 ^ u.size := Nat.pow_le_pow_right (by omega) hvs
      constructor
      · intro heq
        have h1 : u.net / 2 ^ u.size * 2 ^ u.size ≤ v.net ∧
            v.net < u.net / 2 ^ u.size * 2 ^ u.size + 2 ^ u.size := by
          rw [← div_eq_iff_bounds heu, heq]
        have hup : v.net + 2 ^ v.size ≤ u.net / 2 ^ u.size * 2 ^ u.size + 2 ^ u.size := by
          refine dvd_lt_add_le (Nat.dvd_of_mod_eq_zero hv.aligned) ?_ h1.2
          exact dvd_add (Dvd.dvd.mul_left hdvd _) hdvd
        omega
      · intro ⟨h1, h2⟩
        have hgoal : v.net / 2 ^ u.size = u.net / 2 ^ u.size := by
          rw [div_eq_iff_bounds heu]
          omega
        omega

theorem contains_refl {u : Ipv4Cidr} (hu : ValidB u) : u.containsCidr u = true := by
  rw [contains_iff hu hu]
  omega

theorem contains_mem {u v : Ipv4Cidr} (hu : ValidB u) (hv : ValidB v)
    (h : u.containsCidr v = true) {a : Nat} (ha : memA v a) : memA u a := by
  rw [contains_iff hu hv] at h
  unfold memA at *
  omega

theorem contains_trans {u v w : Ipv4Cidr} (hu : ValidB u) (hv : ValidB v)
    (hw : ValidB w) (h1 : u.containsCidr v = true) (h2 : v.containsCidr w = true) :
    u.containsCidr w = true := by
  rw [contains_iff hu hv] at h1
  rw [contains_iff hv hw] at h2
  rw [contains_iff hu hw]
  omega

theorem contains_size_le {u v : Ipv4Cidr} (hu : ValidB u) (hv : ValidB v)
    (h : u.containsCidr v = true) : v.size ≤ u.size := by
  rw [contains_iff hu hv] at h
  rw [loR_eq hu, loR_eq hv, hiR_eq hu, hiR_eq hv] at h
  by_contra hc
  have e1 : (2:Nat) ^ u.size < 2 ^ v.size := Nat.pow_lt_pow_right (by omega) (by omega)
  have e2 : (0:Nat) < 2 ^ u.size := pow_pos2 u.size
  omega

/-- Containment between equal-size valid blocks is equality. -/
theorem contains_eq_of_size {u v : Ipv4Cidr} (hu : ValidB u) (hv : ValidB v)
    (hs : u.size = v.size) (h : u.containsCidr v = true) : u = v := by
  rw [contains_iff hu hv] at h
  rw [loR_eq hu, loR_eq hv, hiR_eq hu, hiR_eq hv, hs] at h
  have : u.net = v.net := by
    have := pow_pos2 v.size
    omega
  cases u; cases v
  simp_all

/-- Two valid blocks either nest or are interval-disjoint. -/
theorem block_dichotomy {u v : Ipv4Cidr} (hu : ValidB u) (hv : ValidB v) :
    u.containsCidr v = true ∨ v.containsCidr u = true ∨
      hiR u < loR v ∨ hiR v < loR u := by
  have key : ∀ x y : Ipv4Cidr, ValidB x → ValidB y → y.size ≤ x.size →
      ¬ (hiR x < loR y ∨ hiR y < loR x) → x.containsCidr y = true := by
    intro x y hx hy hs hnd
    have hex : (0:Nat) < 2 ^ x.size := pow_pos2 x.size
    have hey : (0:Nat) < 2 ^ y.size := pow_pos2 y.size
    rw [loR_eq hx, loR_eq hy, hiR_eq hx, hiR_eq hy] at hnd
    have hax : memA x (max x.net y.net) := by
      unfold memA
      rw [loR_eq hx, hiR_eq hx]
      omega
    have hay1 : y.net ≤ max x.net y.net := by omega
    have hay2 : max x.net y.net ≤ y.net + (2 ^ y.size - 1) := by omega
    have h1 : max x.net y.net / 2 ^ x.size = x.net / 2 ^ x.size :=
      (memA_iff hx _).mp hax
    have h2 : max x.net y.net / 2 ^ x.size = y.net / 2 ^ x.size :=
      interval_same_bucket hy.aligned hs hay1 hay2
    rw [contains_iff hx hy, loR_eq hx, loR_eq hy, hiR_eq hx, hiR_eq hy]
    have h3 : y.net / 2 ^ x.size = x.net / 2 ^ x.size := by omega
    rw [div_eq_iff_bounds hex] at h3
    have hup : y.net + 2 ^ y.size ≤ x.net / 2 ^ x.size * 2 ^ x.size + 2 ^ x.size := by
      refine dvd_lt_add_le (Nat.dvd_of_mod_eq_zero hy.aligned) ?_ h3.2
      exact dvd_add (Dvd.dvd.mul_left (pow_dvd_pow 2 hs) _) (pow_dvd_pow 2 hs)
    have hqu : x.net / 2 ^ x.size * 2 ^ x.size = x.net :=
      Nat.div_mul_cancel (Nat.dvd_of_mod_eq_zero hx.aligned)
    omega
  by_cases hd : hiR u < loR v ∨ hiR v < loR u
  · right; right; exact hd
  · rcases Nat.le_total v.size u.size with hs | hs
    · left; exact key u v hu hv hs hd
    · right; left
      refine key v u hv hu hs ?_
      omega

/-! ### Sibling and parent blocks -/

/-- Where `c`, its sibling and its parent sit, numerically: the parent is
one level up, and `{c.net, pairKey c}` are the two aligned halves of the
parent. -/
theorem parent_layout {c : Ipv4Cidr} (hc : ValidB c) (hs : c.size < 32) :
    (parentB c).size = c.size + 1 ∧
    (parentB c).net % 2 ^ (c.size + 1) = 0 ∧
    ((parentB c).net = c.net ∧ Ipv4CidrList.pairKey c = c.net + 2 ^ c.size ∨
     (parentB c).net + 2 ^ c.size = c.net ∧ Ipv4CidrList.pairKey c + 2 ^ c.size = c.net) := by
  have he : (0:Nat) < 2 ^ c.size := pow_pos2 c.size
  have hq : c.net / 2 ^ c.size * 2 ^ c.size = c.net :=
    Nat.div_mul_cancel (Nat.dvd_of_mod_eq_zero hc.aligned)
  have hE : (2:Nat) ^ (c.size + 1) = 2 ^ c.size * 2 := pow_succ 2 c.size
  -- the parent base address
  have hpnet : parentB c = ⟨c.net / 2 ^ (c.size + 1) * 2 ^ (c.size + 1), c.size + 1⟩ := by
    unfold parentB Ipv4Cidr.make
    rcases Nat.eq_or_lt_of_le (Nat.succ_le_of_lt hs) with h31 | h31
    · have h0 : 31 - c.size = 0 := by omega
      rw [h0]
      simp only [if_pos rfl]
      have hz : c.net / 2 ^ (c.size + 1) = 0 := by
        refine Nat.div_eq_of_lt ?_
        have : c.size + 1 = 32 := by omega
        rw [this]
        exact hc.net_lt
      rw [hz]
      have : c.size + 1 = 32 := by omega
      rw [this]
      simp
    · have h0 : ¬ (31 - c.size = 0) := by omega
      have h1 : 31 - c.size < 32 := by omega
      rw [if_neg h0, if_pos h1]
      have h2 : 32 - (31 - c.size) = c.size + 1 := by omega
      rw [h2, shiftr_eq, shiftl_eq]
  refine ⟨by rw [hpnet], by rw [hpnet]; exact Nat.mul_mod_left _ _, ?_⟩
  -- split the block index by parity
  set q := c.net / 2 ^ c.size with hqdef
  have hqsplit : q = 2 * (q / 2) + q % 2 := (Nat.div_add_mod q 2).symm
  have hb2 : q % 2 = 0 ∨ q % 2 = 1 := by omega
  have hnet : c.net = q / 2 * (2 ^ c.size * 2) + q % 2 * 2 ^ c.size := by
    calc c.net = q * 2 ^ c.size := hq.symm
      _ = (2 * (q / 2) + q % 2) * 2 ^ c.size := by rw [← hqsplit]
      _ = q / 2 * (2 ^ c.size * 2) + q % 2 * 2 ^ c.size := by ring
  have hble : q % 2 * 2 ^ c.size ≤ 2 ^ c.size := by
    have h01 : q % 2 ≤ 1 := by omega
    calc q % 2 * 2 ^ c.size ≤ 1 * 2 ^ c.size := Nat.mul_le_mul_right _ h01
      _ = 2 ^ c.size := Nat.one_mul _
  have hdivE : c.net / 2 ^ (c.size + 1) = q / 2 := by
    rw [hE, div_eq_iff_bounds (by omega)]
    omega
  have hP : (parentB c).net = q / 2 * (2 ^ c.size * 2) := by
    rw [hpnet]
    simp only
    rw [hdivE, hE]
  -- unfold pairKey
  unfold Ipv4CidrList.pairKey
  rw [shiftr_eq, and1_eq, ← hqdef]
  rcases hb2 with hb | hb
  · left
    rw [hb, Nat.zero_mul, Nat.add_zero] at hnet
    rw [if_pos hb, shiftl_eq]
    constructor
    · rw [hP]
      omega
    · calc (q + 1) * 2 ^ c.size = q * 2 ^ c.size + 2 ^ c.size := by ring
        _ = c.net + 2 ^ c.size := by rw [hq]
  · right
    rw [hb, Nat.one_mul] at hnet
    have hq1 : 1 ≤ q := by omega
    rw [if_neg (by omega), shiftl_eq]
    constructor
    · rw [hP]
      omega
    · calc (q - 1) * 2 ^ c.size + 2 ^ c.size = (q - 1 + 1) * 2 ^ c.size := by ring
        _ = q * 2 ^ c.size := by rw [Nat.sub_add_cancel hq1]
        _ = c.net := hq

theorem parentB_size {c : Ipv4Cidr} (hc : ValidB c) (hs : c.size < 32) :
    (parentB c).size = c.size + 1 := (parent_layout hc hs).1

theorem ValidB_parentB {c : Ipv4Cidr} (hc : ValidB c) (hs : c.size < 32) :
    ValidB (parentB c) := by
  obtain ⟨h1, hal, h2⟩ := parent_layout hc hs
  have hnl := hc.net_lt
  refine ⟨by omega, by omega, ?_⟩
  rw [h1]
  exact hal

theorem ValidB_sibB {c : Ipv4Cidr} (hc : ValidB c) (hs : c.size < 32) :
    ValidB (sibB c) := by
  obtain ⟨h1, hal, h2⟩ := parent_layout hc hs
  have hp := ValidB_parentB hc hs
  have htop := hiR_lt_top hp
  rw [hiR_eq hp, h1] at htop
  have hE : (2:Nat) ^ (c.size + 1) = 2 ^ c.size * 2 := pow_succ 2 c.size
  have he : (0:Nat) < 2 ^ c.size := pow_pos2 c.size
  have hsz : (sibB c).size = c.size := rfl
  have hsn : (sibB c).net = Ipv4CidrList.pairKey c := rfl
  refine ⟨by omega, by rw [hsn]; omega, ?_⟩
  rw [hsn, hsz]
  have hdvd : 2 ^ c.size ∣ c.net := Nat.dvd_of_mod_eq_zero hc.aligned
  rcases h2 with ⟨ha, hb⟩ | ⟨ha, hb⟩
  · rw [hb, Nat.add_mod_right]
    exact hc.aligned
  · have heqp : Ipv4CidrList.pairKey c = (parentB c).net := by omega
    rw [heqp]
    have hdp : 2 ^ c.size ∣ (parentB c).net := by
      have h2d : (2:Nat) ^ c.size ∣ 2 ^ (c.size + 1) := pow_dvd_pow 2 (by omega)
      exact dvd_trans h2d (Nat.dvd_of_mod_eq_zero hal)
    obtain ⟨k, hk⟩ := hdp
    rw [hk, Nat.mul_comm]
    exact Nat.mul_mod_left _ _

theorem pairKey_ne {c : Ipv4Cidr} (hc : ValidB c) (hs : c.size < 32) :
    Ipv4CidrList.pairKey c ≠ c.net := by
  obtain ⟨h1, hal, h2⟩ := parent_layout hc hs
  have he := pow_pos2 c.size
  omega

/-- An `e`-aligned address inside an `e*2`-aligned bucket of width `e*2`
is one of the two halves. -/
theorem aligned_in_parent {x P e : Nat} (hax : x % e = 0) (he : 0 < e)
    (h1 : P ≤ x) (h2 : x < P + e * 2) (hP : P % (e * 2) = 0) :
    x = P ∨ x = P + e := by
  have hdP : e ∣ P := dvd_trans ⟨2, rfl⟩ (Nat.dvd_of_mod_eq_zero hP)
  obtain ⟨kx, hkx⟩ := Nat.dvd_of_mod_eq_zero hax
  obtain ⟨kP, hkP⟩ := hdP
  subst hkx hkP
  have hk1 : kP ≤ kx := Nat.le_of_mul_le_mul_left h1 he
  have hk2 : kx < kP + 2 := by
    have : e * kx < e * (kP + 2) := by
      calc e * kx < e * kP + e * 2 := h2
        _ = e * (kP + 2) := by ring
    exact Nat.lt_of_mul_lt_mul_left this
  have : kx = kP ∨ kx = kP + 1 := by omega
  rcases this with h | h
  · left; rw [h]
  · right; rw [h]; ring

/-- `c`, its sibling and its parent all share the parent's
level-`size+1` bucket. -/
theorem parent_buckets {c : Ipv4Cidr} (hc : ValidB c) (hs : c.size < 32) :
    c.net / 2 ^ (c.size + 1) = (parentB c).net / 2 ^ (c.size + 1) ∧
    Ipv4CidrList.pairKey c / 2 ^ (c.size + 1) = (parentB c).net / 2 ^ (c.size + 1) := by
  obtain ⟨h1, hal, h2⟩ := parent_layout hc hs
  have he := pow_pos2 c.size
  have hE : (2:Nat) ^ (c.size + 1) = 2 ^ c.size * 2 := pow_succ 2 c.size
  have hEpos : (0:Nat) < 2 ^ (c.size + 1) := pow_pos2 _
  have hPP : (parentB c).net / 2 ^ (c.size + 1) * 2 ^ (c.size + 1) = (parentB c).net :=
    Nat.div_mul_cancel (Nat.dvd_of_mod_eq_zero hal)
  constructor <;>
    · rw [div_eq_iff_bounds hEpos]
      omega

theorem mergeable_symm {u v : Ipv4Cidr} (h : Mergeable u v) : Mergeable v u := by
  obtain ⟨h1, h2, h3, h4⟩ := h
  refine ⟨h1.symm, by omega, h3.symm, ?_⟩
  rw [← h1]
  exact h4.symm

theorem mergeable_sib {c : Ipv4Cidr} (hc : ValidB c) (hs : c.size < 32) :
    Mergeable (sibB c) c := by
  have hsz : (sibB c).size = c.size := rfl
  have hsn : (sibB c).net = Ipv4CidrList.pairKey c := rfl
  refine ⟨hsz, by omega, by rw [hsn]; exact pairKey_ne hc hs, ?_⟩
  rw [hsz, hsn, shiftr_eq, shiftr_eq]
  obtain ⟨hb1, hb2⟩ := parent_buckets hc hs
  omega

/-- A valid block mergeable with `c` is exactly `c`'s sibling block. -/
theorem mergeable_elim {u c : Ipv4Cidr} (hu : ValidB u) (hc : ValidB c)
    (h : Mergeable u c) : u = sibB c := by
  obtain ⟨hsz, hs, hne, hpre⟩ := h
  rw [hsz] at hs
  obtain ⟨h1, hal, h2⟩ := parent_layout hc hs
  obtain ⟨hb1, hb2⟩ := parent_buckets hc hs
  rw [shiftr_eq, shiftr_eq, hsz] at hpre
  have he := pow_pos2 c.size
  have hE : (2:Nat) ^ (c.size + 1) = 2 ^ c.size * 2 := pow_succ 2 c.size
  have hEpos : (0:Nat) < 2 ^ (c.size + 1) := pow_pos2 _
  have hPP : (parentB c).net / 2 ^ (c.size + 1) * 2 ^ (c.size + 1) = (parentB c).net :=
    Nat.div_mul_cancel (Nat.dvd_of_mod_eq_zero hal)
  -- u sits in the parent bucket
  have hu2 : u.net / 2 ^ (c.size + 1) = (parentB c).net / 2 ^ (c.size + 1) := by
    rw [hpre]; exact hb1
  have hub := (@div_eq_iff_bounds (2 ^ (c.size + 1)) u.net
    (u.net / 2 ^ (c.size + 1)) hEpos).mp rfl
  rw [hu2, hPP] at hub
  have hual : u.net % 2 ^ c.size = 0 := by
    have := hu.aligned
    rwa [hsz] at this
  have hcases : u.net = (parentB c).net ∨ u.net = (parentB c).net + 2 ^ c.size := by
    refine aligned_in_parent hual he hub.1 ?_ ?_
    · rw [← hE]; exact hub.2
    · rw [← hE]; exact hal
  have hun : u.net = Ipv4CidrList.pairKey c := by omega
  have hsn : (sibB c).net = Ipv4CidrList.pairKey c := rfl
  have hssz : (sibB c).size = c.size := rfl
  cases u
  cases hcs : sibB c
  simp_all

/-- The parent block is exactly the union of `c` and its sibling. -/
theorem parent_covers {c : Ipv4Cidr} (hc : ValidB c) (hs : c.size < 32) (a : Nat) :
    memA (parentB c) a ↔ memA c a ∨ memA (sibB c) a := by
  obtain ⟨h1, hal, h2⟩ := parent_layout hc hs
  have hp := ValidB_parentB hc hs
  have hsb := ValidB_sibB hc hs
  have he := pow_pos2 c.size
  have hE : (2:Nat) ^ (c.size + 1) = 2 ^ c.size * 2 := pow_succ 2 c.size
  have hsn : (sibB c).net = Ipv4CidrList.pairKey c := rfl
  have hssz : (sibB c).size = c.size := rfl
  unfold memA
  rw [loR_eq hp, hiR_eq hp, loR_eq hc, hiR_eq hc, loR_eq hsb, hiR_eq hsb,
    hsn, hssz, h1]
  omega

/-- Any valid block at least one level larger that contains `c` or its
sibling contains the whole parent. -/
theorem contains_parent_of_child {B c : Ipv4Cidr} (hB : ValidB B) (hc : ValidB c)
    (hs : c.size < 32) (hsize : c.size + 1 ≤ B.size)
    (hx : B.containsCidr c = true ∨ B.containsCidr (sibB c) = true) :
    B.containsCidr (parentB c) = true := by
  have hp := ValidB_parentB hc hs
  have hsb := ValidB_sibB hc hs
  have hE : (2:Nat) ^ (c.size + 1) = 2 ^ c.size * 2 := pow_succ 2 c.size
  have he := pow_pos2 c.size
  have hEB : (0:Nat) < 2 ^ B.size := pow_pos2 B.size
  -- a point of the parent inside B: the base of the contained child
  obtain ⟨x, hxv, hxc, hxm⟩ : ∃ x, ValidB x ∧ B.containsCidr x = true ∧
      memA (parentB c) (loR x) := by
    rcases hx with hx | hx
    · exact ⟨c, hc, hx, (parent_covers hc hs _).mpr (Or.inl memA_loR)⟩
    · exact ⟨sibB c, hsb, hx, (parent_covers hc hs _).mpr (Or.inr memA_loR)⟩
  have hmemB : memA B (loR x) := contains_mem hB hxv hxc memA_loR
  -- parent sits inside one level-B.size bucket, the same one as B
  have hbP : loR x / 2 ^ B.size = (parentB c).net / 2 ^ B.size := by
    refine interval_same_bucket hp.aligned (by rw [parentB_size hc hs]; exact hsize) ?_ ?_
    · have := (loR_eq hp) ▸ hxm.1
      omega
    · have := (hiR_eq hp) ▸ hxm.2
      omega
  have hbB : loR x / 2 ^ B.size = B.net / 2 ^ B.size := (memA_iff hB _).mp hmemB
  rw [contains_iff hB hp, loR_eq hB, hiR_eq hB, loR_eq hp, hiR_eq hp,
    parentB_size hc hs]
  have hQ : B.net / 2 ^ B.size * 2 ^ B.size = B.net :=
    Nat.div_mul_cancel (Nat.dvd_of_mod_eq_zero hB.aligned)
  have hbnd : B.net / 2 ^ B.size * 2 ^ B.size ≤ (parentB c).net ∧
      (parentB c).net < B.net / 2 ^ B.size * 2 ^ B.size + 2 ^ B.size := by
    rw [← div_eq_iff_bounds hEB]
    omega
  have hpal : (parentB c).net % 2 ^ (c.size + 1) = 0 := by
    rw [← parentB_size hc hs]
    exact hp.aligned
  have hup : (parentB c).net + 2 ^ (c.size + 1) ≤
      B.net / 2 ^ B.size * 2 ^ B.size + 2 ^ B.size := by
    refine dvd_lt_add_le (Nat.dvd_of_mod_eq_zero hpal) ?_ hbnd.2
    have hd1 : (2:Nat) ^ (c.size + 1) ∣ 2 ^ B.size := pow_dvd_pow 2 hsize
    exact dvd_add (Dvd.dvd.mul_left hd1 _) hd1
  have hEp : (0:Nat) < 2 ^ (c.size + 1) := pow_pos2 _
  omega

/-! ## Map lemmas -/

open Ipv4CidrList

theorem pairwise_cases {α : Type} {R : α → α → Prop} {l : List α} (h : l.Pairwise R)
    {p q : α} (hp : p ∈ l) (hq : q ∈ l) (hne : p ≠ q) : R p q ∨ R q p := by
  induction l with
  | nil => cases hp
  | cons u rest ih =>
    rcases List.mem_cons.mp hp with rfl | hp2
    · rcases List.mem_cons.mp hq with rfl | hq2
      · exact absurd rfl hne
      · exact Or.inl ((List.pairwise_cons.mp h).1 q hq2)
    · rcases List.mem_cons.mp hq with rfl | hq2
      · exact Or.inr ((List.pairwise_cons.mp h).1 p hp2)
      · exact ih (List.pairwise_cons.mp h).2 hp2 hq2

theorem Inv.entryOk {m : CidrMap} (h : Inv m) : ∀ p ∈ m, EntryOk p := h.1

theorem Inv.below {m : CidrMap} (h : Inv m) : m.Pairwise Below := h.2.1

theorem Inv.nomerge {m : CidrMap} (h : Inv m) :
    m.Pairwise fun p q => ¬ Mergeable p.2 q.2 := h.2.2

theorem Inv.keyLt {m : CidrMap} (h : Inv m) : m.Pairwise fun p q => p.1 < q.1 := by
  refine h.below.imp_of_mem ?_
  intro p q hp hq hb
  obtain ⟨hvp, hkp⟩ := h.entryOk p hp
  obtain ⟨hvq, hkq⟩ := h.entryOk q hq
  unfold Below at hb
  have h1 := loR_le_hiR p.2
  rw [loR_eq hvp] at h1
  rw [loR_eq hvq] at hb
  omega

theorem Inv.tail {k : Nat} {v : Ipv4Cidr} {rest : CidrMap}
    (h : Inv ((k, v) :: rest)) : Inv rest := by
  obtain ⟨h1, h2, h3⟩ := h
  exact ⟨fun p hp => h1 p (List.mem_cons_of_mem _ hp),
    (List.pairwise_cons.mp h2).2, (List.pairwise_cons.mp h3).2⟩

/-- Distinct members of an invariant map have disjoint intervals. -/
theorem mem_disjoint {m : CidrMap} (h : Inv m) {p q : Nat × Ipv4Cidr}
    (hp : p ∈ m) (hq : q ∈ m) (hne : p ≠ q) :
    hiR p.2 < loR q.2 ∨ hiR q.2 < loR p.2 := by
  rcases pairwise_cases h.below hp hq hne with hb | hb
  · exact Or.inl hb
  · exact Or.inr hb

/-- Distinct members of an invariant map are not mergeable siblings. -/
theorem mem_nomerge {m : CidrMap} (h : Inv m) {p q : Nat × Ipv4Cidr}
    (hp : p ∈ m) (hq : q ∈ m) (hne : p ≠ q) : ¬ Mergeable p.2 q.2 := by
  rcases pairwise_cases h.nomerge hp hq hne with hb | hb
  · exact hb
  · exact fun hm => hb (mergeable_symm hm)

theorem kfind_mem {m : CidrMap} {k : Nat} {v : Ipv4Cidr}
    (h : kfind m k = some v) : (k, v) ∈ m := by
  induction m with
  | nil => simp [kfind] at h
  | cons p rest ih =>
    obtain ⟨k', v'⟩ := p
    unfold kfind at h
    split at h
    · rename_i heq
      simp only [Option.some.injEq] at h
      subst heq h
      exact List.mem_cons_self _ _
    · exact List.mem_cons_of_mem _ (ih h)

theorem kfind_of_mem {m : CidrMap} {k : Nat} {v : Ipv4Cidr}
    (hnd : m.Pairwise fun p q => p.1 < q.1) (hm : (k, v) ∈ m) :
    kfind m k = some v := by
  induction m with
  | nil => cases hm
  | cons p rest ih =>
    obtain ⟨k', v'⟩ := p
    unfold kfind
    rcases List.mem_cons.mp hm with heq | hm2
    · obtain ⟨rfl, rfl⟩ := Prod.mk.injEq .. ▸ heq
      simp
    · have hlt : k' < k := (List.pairwise_cons.mp hnd).1 (k, v) hm2
      rw [if_neg (by omega)]
      exact ih (List.pairwise_cons.mp hnd).2 hm2

theorem kfind_none_of_not_mem {m : CidrMap} {k : Nat}
    (hm : ∀ v, (k, v) ∉ m) : kfind m k = none := by
  induction m with
  | nil => rfl
  | cons p rest ih =>
    obtain ⟨k', v'⟩ := p
    unfold kfind
    split
    · rename_i heq
      subst heq
      exact absurd (List.mem_cons_self _ _) (hm v')
    · exact ih fun v hv => hm v (List.mem_cons_of_mem _ hv)

theorem mem_kinsert {m : CidrMap} {k : Nat} {v : Ipv4Cidr} {x : Nat × Ipv4Cidr}
    (hnd : m.Pairwise fun p q => p.1 < q.1) :
    x ∈ kinsert m k v ↔ x = (k, v) ∨ (x ∈ m ∧ x.1 ≠ k) := by
  induction m with
  | nil => simp [kinsert]
  | cons p rest ih =>
    obtain ⟨k', v'⟩ := p
    have hhead := (List.pairwise_cons.mp hnd).1
    have htail := (List.pairwise_cons.mp hnd).2
    unfold kinsert
    split
    · rename_i hlt
      constructor
      · intro hx
        rcases List.mem_cons.mp hx with rfl | hx2
        · exact Or.inl rfl
        · refine Or.inr ⟨hx2, ?_⟩
          rcases List.mem_cons.mp hx2 with rfl | hx3
          · simp only
            omega
          · have := hhead x hx3
            omega
      · rintro (rfl | ⟨hx2, _⟩)
        · exact List.mem_cons_self _ _
        · exact List.mem_cons_of_mem _ hx2
    · split
      · rename_i hlt heq
        subst heq
        constructor
        · intro hx
          rcases List.mem_cons.mp hx with rfl | hx2
          · exact Or.inl rfl
          · refine Or.inr ⟨List.mem_cons_of_mem _ hx2, ?_⟩
            have := hhead x hx2
            omega
        · rintro (rfl | ⟨hx2, hne⟩)
          · exact List.mem_cons_self _ _
          · rcases List.mem_cons.mp hx2 with rfl | hx3
            · exact absurd rfl hne
            · exact List.mem_cons_of_mem _ hx3
      · rename_i hlt hne
        constructor
        · intro hx
          rcases List.mem_cons.mp hx with rfl | hx2
          · exact Or.inr ⟨List.mem_cons_self _ _, by simp only; omega⟩
          · rcases (ih htail).mp hx2 with h | ⟨h1, h2⟩
            · exact Or.inl h
            · exact Or.inr ⟨List.mem_cons_of_mem _ h1, h2⟩
        · rintro (rfl | ⟨hx2, hne2⟩)
          · exact List.mem_cons_of_mem _ ((ih htail).mpr (Or.inl rfl))
          · rcases List.mem_cons.mp hx2 with rfl | hx3
            · exact List.mem_cons_self _ _
            · exact List.mem_cons_of_mem _ ((ih htail).mpr (Or.inr ⟨hx3, hne2⟩))

theorem kinsert_pairwise {R : (Nat × Ipv4Cidr) → (Nat × Ipv4Cidr) → Prop}
    {m : CidrMap} {k : Nat} {v : Ipv4Cidr}
    (hm : m.Pairwise R) (hnd : m.Pairwise fun p q => p.1 < q.1)
    (h : ∀ q ∈ m, (q.1 < k → R q (k, v)) ∧ (k < q.1 → R (k, v) q) ∧ q.1 ≠ k) :
    (kinsert m k v).Pairwise R := by
  induction m with
  | nil =>
    unfold kinsert
    exact List.pairwise_cons.mpr ⟨fun x hx => absurd hx (List.not_mem_nil x), List.Pairwise.nil⟩
  | cons p rest ih =>
    obtain ⟨k', v'⟩ := p
    have hph := List.pairwise_cons.mp hm
    have hnh := List.pairwise_cons.mp hnd
    have hhd := h (k', v') (List.mem_cons_self _ _)
    unfold kinsert
    split
    · rename_i hlt
      refine List.pairwise_cons.mpr ⟨?_, hm⟩
      intro x hx
      rcases List.mem_cons.mp hx with rfl | hx2
      · exact hhd.2.1 hlt
      · have h2 : k' < x.1 := hnh.1 x hx2
        exact (h x (List.mem_cons_of_mem _ hx2)).2.1 (by omega)
    · split
      · rename_i hlt heq
        exact absurd heq.symm hhd.2.2
      · rename_i hlt hne
        refine List.pairwise_cons.mpr ⟨?_, ?_⟩
        · intro x hx
          rcases (mem_kinsert hnh.2).mp hx with rfl | ⟨hx2, _⟩
          · exact hhd.1 (show k' < k by omega)
          · exact hph.1 x hx2
        · exact ih hph.2 hnh.2 fun q hq => h q (List.mem_cons_of_mem _ hq)

theorem kerase_sublist (m : CidrMap) (k : Nat) : (kerase m k).Sublist m := by
  induction m with
  | nil => exact List.Sublist.refl _
  | cons p rest ih =>
    obtain ⟨k', v'⟩ := p
    unfold kerase
    split
    · exact List.sublist_cons_self _ _
    · exact List.Sublist.cons₂ _ ih

theorem mem_kerase {m : CidrMap} {k : Nat} {x : Nat × Ipv4Cidr}
    (hnd : m.Pairwise fun p q => p.1 < q.1) :
    x ∈ kerase m k ↔ x ∈ m ∧ x.1 ≠ k := by
  induction m with
  | nil => simp [kerase]
  | cons p rest ih =>
    obtain ⟨k', v'⟩ := p
    have hnh := List.pairwise_cons.mp hnd
    unfold kerase
    split
    · rename_i heq
      subst heq
      constructor
      · intro hx
        refine ⟨List.mem_cons_of_mem _ hx, ?_⟩
        have := hnh.1 x hx
        omega
      · rintro ⟨hx, hne⟩
        rcases List.mem_cons.mp hx with rfl | hx2
        · exact absurd rfl hne
        · exact hx2
    · rename_i hne
      constructor
      · intro hx
        rcases List.mem_cons.mp hx with rfl | hx2
        · exact ⟨List.mem_cons_self _ _, by simp only; omega⟩
        · obtain ⟨h1, h2⟩ := (ih hnh.2).mp hx2
          exact ⟨List.mem_cons_of_mem _ h1, h2⟩
      · rintro ⟨hx, hne2⟩
        rcases List.mem_cons.mp hx with rfl | hx2
        · exact List.mem_cons_self _ _
        · exact List.mem_cons_of_mem _ ((ih hnh.2).mpr ⟨hx2, hne2⟩)

theorem Inv.kerase {m : CidrMap} (h : Inv m) (k : Nat) : Inv (Ipv4CidrList.kerase m k) := by
  obtain ⟨h1, h2, h3⟩ := h
  have hs := kerase_sublist m k
  exact ⟨fun p hp => h1 p (hs.mem hp), h2.sublist hs, h3.sublist hs⟩

theorem Inv.filter {m : CidrMap} (h : Inv m) (pred : Nat × Ipv4Cidr → Bool) :
    Inv (m.filter pred) := by
  obtain ⟨h1, h2, h3⟩ := h
  have hs : List.Sublist (m.filter pred) m := List.filter_sublist m
  exact ⟨fun p hp => h1 p (hs.mem hp), h2.sublist hs, h3.sublist hs⟩

theorem Inv.kinsertInv {m : CidrMap} (h : Inv m) {c : Ipv4Cidr} (hc : ValidB c)
    (hdisj : ∀ p ∈ m, hiR p.2 < loR c ∨ hiR c < loR p.2)
    (hnm : ∀ p ∈ m, ¬ Mergeable p.2 c) :
    Inv (kinsert m c.net c) := by
  have hnd := h.keyLt
  refine ⟨?_, ?_, ?_⟩
  · intro p hp
    rcases (mem_kinsert hnd).mp hp with rfl | ⟨h1, _⟩
    · exact ⟨hc, rfl⟩
    · exact h.entryOk p h1
  · refine kinsert_pairwise h.below hnd ?_
    intro q hq
    obtain ⟨hvq, hkq⟩ := h.entryOk q hq
    have hdq := hdisj q hq
    have hlo := loR_eq hvq
    have hlc := loR_eq hc
    have hhi := loR_le_hiR q.2
    have hhc := loR_le_hiR c
    unfold Below
    simp only
    omega
  · refine kinsert_pairwise h.nomerge hnd ?_
    intro q hq
    obtain ⟨hvq, hkq⟩ := h.entryOk q hq
    have hdq := hdisj q hq
    have hlo := loR_eq hvq
    have hlc := loR_eq hc
    have hhi := loR_le_hiR q.2
    have hhc := loR_le_hiR c
    refine ⟨fun _ => hnm q hq, fun _ hm => hnm q hq (mergeable_symm hm), ?_⟩
    omega

/-- Membership after a canonical-position insert of a fresh key. -/
theorem mem_kinsert_net {m : CidrMap} (h : Inv m) {c : Ipv4Cidr}
    {x : Nat × Ipv4Cidr}
    (hdisj : ∀ p ∈ m, hiR p.2 < loR c ∨ hiR c < loR p.2) (hc : ValidB c) :
    x ∈ kinsert m c.net c ↔ x = (c.net, c) ∨ x ∈ m := by
  rw [mem_kinsert h.keyLt]
  constructor
  · rintro (rfl | ⟨h1, _⟩)
    · exact Or.inl rfl
    · exact Or.inr h1
  · rintro (rfl | h1)
    · exact Or.inl rfl
    · refine Or.inr ⟨h1, ?_⟩
      obtain ⟨hvx, hkx⟩ := h.entryOk x h1
      have := hdisj x h1
      have h2 := loR_eq hvx
      have h3 := loR_eq hc
      have h4 := loR_le_hiR x.2
      have h5 := loR_le_hiR c
      omega

/-- Erasing the keys collected by a predicate is filtering by its
negation. -/
theorem foldl_kerase_eq_filter {m : CidrMap}
    (hnd : m.Pairwise fun p q => p.1 < q.1) (pred : Nat × Ipv4Cidr → Bool) :
    ((m.filter pred).map Prod.fst).foldl Ipv4CidrList.kerase m =
      m.filter fun p => ! pred p := by
  induction m with
  | nil => rfl
  | cons p rest ih =>
    obtain ⟨k, v⟩ := p
    have hnh := List.pairwise_cons.mp hnd
    have hkeys : ∀ j ∈ (rest.filter pred).map Prod.fst, j ≠ k := by
      intro j hj
      obtain ⟨q, hq1, hq2⟩ := List.mem_map.mp hj
      have := hnh.1 q (List.mem_filter.mp hq1).1
      omega
    by_cases hp : pred (k, v)
    · rw [List.filter_cons_of_pos hp, List.map_cons]
      have hstep : List.foldl Ipv4CidrList.kerase ((k, v) :: rest)
          (k :: (rest.filter pred).map Prod.fst) =
          List.foldl Ipv4CidrList.kerase rest ((rest.filter pred).map Prod.fst) := by
        simp only [List.foldl_cons]
        congr 1
        unfold Ipv4CidrList.kerase
        rw [if_pos rfl]
      rw [hstep, ih hnh.2, List.filter_cons_of_neg (by simp [hp])]
    · have hskip : ∀ l : List Nat, (∀ j ∈ l, j ≠ k) → ∀ ms : CidrMap,
          List.foldl Ipv4CidrList.kerase ((k, v) :: ms) l =
          (k, v) :: List.foldl Ipv4CidrList.kerase ms l := by
        intro l
        induction l with
        | nil => intro _ ms; rfl
        | cons j js ihl =>
          intro hjs ms
          simp only [List.foldl_cons]
          have hj : j ≠ k := hjs j (List.mem_cons_self _ _)
          have hstep1 : Ipv4CidrList.kerase ((k, v) :: ms) j =
              (k, v) :: Ipv4CidrList.kerase ms j := by
            show (if j = k then ms else (k, v) :: Ipv4CidrList.kerase ms j) = _
            rw [if_neg (by omega)]
          rw [hstep1]
          exact ihl (fun x hx => hjs x (List.mem_cons_of_mem _ hx)) _
      rw [List.filter_cons_of_neg (by simp [hp]), List.filter_cons_of_pos (by simp [hp]),
        hskip _ hkeys, ih hnh.2]

theorem covers_cons {k : Nat} {v : Ipv4Cidr} {rest : CidrMap} {a : Nat} :
    covers ((k, v) :: rest) a ↔ memA v a ∨ covers rest a := by
  unfold covers
  simp

theorem covers_of_mem {m : CidrMap} {p : Nat × Ipv4Cidr} (hp : p ∈ m) {a : Nat}
    (ha : memA p.2 a) : covers m a := ⟨p, hp, ha⟩

/-- The first entry of an invariant map starts at the minimum covered
address. -/
theorem head_min {k : Nat} {v : Ipv4Cidr} {rest : CidrMap}
    (h : Inv ((k, v) :: rest)) {a : Nat} (hc : covers ((k, v) :: rest) a) :
    loR v ≤ a := by
  obtain ⟨p, hp, hm⟩ := hc
  rcases List.mem_cons.mp hp with rfl | hp2
  · exact hm.1
  · have hb : hiR v < loR p.2 := (List.pairwise_cons.mp h.below).1 p hp2
    have := loR_le_hiR v
    unfold memA at hm
    omega

/-! ## Correctness of the ancestor search -/

/-- The base of the level-`s` ancestor block of address `c0`. -/
def baseAt (c0 s : Nat) : Nat := (c0 >>> s) <<< s

theorem baseAt_shiftr (c0 s : Nat) : baseAt c0 s >>> s = c0 >>> s := by
  unfold baseAt
  rw [shiftr_eq, shiftl_eq, shiftr_eq, Nat.mul_div_cancel _ (pow_pos2 s)]

theorem baseAt_le (c0 s : Nat) : baseAt c0 s ≤ c0 := by
  unfold baseAt
  rw [shiftr_eq, shiftl_eq]
  exact Nat.div_mul_le_self _ _

theorem baseAt_mod (c0 s : Nat) : baseAt c0 s % 2 ^ s = 0 := by
  unfold baseAt
  rw [shiftr_eq, shiftl_eq]
  exact Nat.mul_mod_left _ _

theorem baseAt_eq_sub (c0 s : Nat) : baseAt c0 s = c0 - c0 % 2 ^ s := by
  unfold baseAt
  rw [shiftr_eq, shiftl_eq]
  have := Nat.div_add_mod c0 (2 ^ s)
  rw [Nat.mul_comm] at this
  omega

/-- Clearing low bits below level `s` does not move the level-`t` bucket,
for `s ≤ t`. -/
theorem baseAt_div {c0 s t : Nat} (hst : s ≤ t) :
    baseAt c0 s / 2 ^ t = c0 / 2 ^ t := by
  have het : (0:Nat) < 2 ^ t := pow_pos2 t
  rw [baseAt_eq_sub, div_eq_iff_bounds het]
  have hmm : c0 % 2 ^ s = c0 % 2 ^ t % 2 ^ s := by
    rw [Nat.mod_mod_of_dvd _ (pow_dvd_pow 2 hst)]
  have h1 : c0 % 2 ^ s ≤ c0 % 2 ^ t := by
    rw [hmm]
    exact Nat.mod_le _ _
  have h2 := Nat.div_add_mod c0 (2 ^ t)
  rw [Nat.mul_comm] at h2
  have h3 : c0 % 2 ^ t < 2 ^ t := Nat.mod_lt _ het
  omega

/-- While the shifted-out bit is zero, the ancestor base does not move. -/
theorem baseAt_step_even {c0 t : Nat} (h : c0 / 2 ^ t % 2 = 0) :
    baseAt c0 (t + 1) = baseAt c0 t := by
  unfold baseAt
  rw [shiftr_eq, shiftl_eq, shiftr_eq, shiftl_eq]
  have hsplit := Nat.div_add_mod (c0 / 2 ^ t) 2
  have hdd : c0 / 2 ^ t / 2 = c0 / 2 ^ (t + 1) := by
    rw [Nat.div_div_eq_div_mul, ← pow_succ]
  have hE : (2:Nat) ^ (t + 1) = 2 ^ t * 2 := pow_succ 2 t
  calc c0 / 2 ^ (t + 1) * 2 ^ (t + 1) = c0 / 2 ^ t / 2 * (2 ^ t * 2) := by
        rw [hdd, hE]
    _ = c0 / 2 ^ t / 2 * 2 * 2 ^ t := by ring
    _ = c0 / 2 ^ t * 2 ^ t := by
        congr 1
        omega

/-- When the shifted-out bit is one, the next differing ancestor base is
obtained exactly as the source computes it: `(n - 1) <<< t`. -/
theorem baseAt_step_odd {c0 t n : Nat} (hn : n = c0 / 2 ^ t) (hodd : n % 2 = 1) :
    (n - 1) <<< t = baseAt c0 (t + 1) := by
  unfold baseAt
  rw [shiftl_eq, shiftr_eq, shiftl_eq]
  have hdd : c0 / 2 ^ t / 2 = c0 / 2 ^ (t + 1) := by
    rw [Nat.div_div_eq_div_mul, ← pow_succ]
  have hE : (2:Nat) ^ (t + 1) = 2 ^ t * 2 := pow_succ 2 t
  have hsplit := Nat.div_add_mod n 2
  have hn1 : n - 1 = n / 2 * 2 := by omega
  calc (n - 1) * 2 ^ t = n / 2 * 2 * 2 ^ t := by rw [hn1]
    _ = n / 2 * (2 ^ t * 2) := by ring
    _ = c0 / 2 ^ (t + 1) * 2 ^ (t + 1) := by rw [← hE, hn, hdd]

/-- Full behaviour of the zero-skipping loop. -/
theorem spSkip_spec (q s : Nat) (hs : s < 32) :
    (spSkip q s = none → q % 2 ^ (32 - s) = 0) ∧
    (∀ n t, spSkip q s = some (n, t) → s ≤ t ∧ t < 32 ∧ n % 2 = 1 ∧
      n = q / 2 ^ (t - s) ∧ ∀ j, j < t - s → q / 2 ^ j % 2 = 0) := by
  induction q, s using spSkip.induct with
  | case1 q s h1 h2 =>
    rw [and1_eq] at h1
    have hs31 : s = 31 := by omega
    constructor
    · intro _
      subst hs31
      simpa using h1
    · intro n t heq
      rw [spSkip, and1_eq, if_pos h1, if_pos h2] at heq
      cases heq
  | case2 q s h1 h2 ih =>
    rw [and1_eq] at h1
    have hs1 : s + 1 < 32 := by omega
    obtain ⟨ihn, ihs⟩ := ih hs1
    have hunf : spSkip q s = spSkip (q >>> 1) (s + 1) := by
      rw [spSkip, and1_eq, if_pos h1, if_neg h2]
    rw [shiftr_eq, pow_one] at hunf ihn ihs
    constructor
    · intro hnone
      rw [hunf] at hnone
      have := ihn hnone
      obtain ⟨j, hj⟩ := Nat.dvd_of_mod_eq_zero this
      have h32 : 32 - s = (32 - (s + 1)) + 1 := by omega
      rw [h32, pow_succ]
      have hq2 : q = 2 ^ (32 - (s + 1)) * j * 2 := by omega
      have hq3 : 2 ^ (32 - (s + 1)) * j * 2 = 2 ^ (32 - (s + 1)) * 2 * j := by ring
      rw [hq2, hq3]
      exact Nat.mul_mod_right _ _
    · intro n t heq
      rw [hunf] at heq
      obtain ⟨ha, hb, hc, hd, he⟩ := ihs n t heq
      have hts : t - s = (t - (s + 1)) + 1 := by omega
      refine ⟨by omega, hb, hc, ?_, ?_⟩
      · rw [hts, pow_succ, Nat.mul_comm (2 ^ (t - (s + 1))) 2, ← Nat.div_div_eq_div_mul]
        exact hd
      · intro j hj
        match j with
        | 0 => simpa using h1
        | j' + 1 =>
          have hj' : j' < t - (s + 1) := by omega
          have := he j' hj'
          rw [pow_succ, Nat.mul_comm (2 ^ j') 2, ← Nat.div_div_eq_div_mul]
          exact this
  | case3 q s h1 =>
    rw [and1_eq] at h1
    constructor
    · intro heq
      rw [spSkip, and1_eq, if_neg h1] at heq
      cases heq
    · intro n t heq
      rw [spSkip, and1_eq, if_neg h1] at heq
      simp only [Option.some.injEq, Prod.mk.injEq] at heq
      obtain ⟨rfl, rfl⟩ := heq
      refine ⟨le_refl _, hs, by omega, by simp, by omega⟩

theorem div_pow_compose {c0 s t : Nat} (hst : s ≤ t) :
    c0 / 2 ^ s / 2 ^ (t - s) = c0 / 2 ^ t := by
  rw [Nat.div_div_eq_div_mul, ← pow_add]
  have h1 : s + (t - s) = t := by omega
  rw [h1]

theorem baseAt_of_aligned {c0 s t : Nat} (hst : s ≤ t)
    (hal : baseAt c0 s % 2 ^ t = 0) : baseAt c0 s = baseAt c0 t := by
  have h1 : baseAt c0 s / 2 ^ t * 2 ^ t = baseAt c0 s :=
    Nat.div_mul_cancel (Nat.dvd_of_mod_eq_zero hal)
  rw [baseAt_div hst] at h1
  rw [← h1]
  unfold baseAt
  rw [shiftr_eq, shiftl_eq]

/-- Over a run of zero bits the ancestor base is constant. -/
theorem baseAt_const_range {c0 s t : Nat}
    (hz : ∀ i, s ≤ i → i < t → c0 / 2 ^ i % 2 = 0) :
    ∀ u, s ≤ u → u ≤ t → baseAt c0 u = baseAt c0 s := by
  intro u
  induction u with
  | zero =>
    intro h1 _
    have : s = 0 := by omega
    rw [this]
  | succ u2 ih =>
    intro h1 h2
    rcases Nat.eq_or_lt_of_le h1 with heq | hlt
    · rw [heq]
    · have hstep : baseAt c0 (u2 + 1) = baseAt c0 u2 :=
        baseAt_step_even (hz u2 (by omega) (by omega))
      rw [hstep]
      exact ih (by omega) (by omega)

/-- The probe hit: the found entry is a member whose base is the matching
ancestor of `c0`. -/
theorem probe_hit_sound {m : CidrMap} (hm : Inv m) {c0 net size : Nat} {v : Ipv4Cidr}
    (hb : net = baseAt c0 size)
    (hfind : kfind m net = some v) (hsz : size ≤ v.size) :
    (v.net, v) ∈ m ∧ ValidB v ∧ size ≤ v.size ∧ v.net = baseAt c0 v.size := by
  have hmem := kfind_mem hfind
  obtain ⟨hval, hkey⟩ := hm.entryOk _ hmem
  have hknet : net = v.net := hkey
  have hvb : v.net = baseAt c0 size := by rw [← hknet, hb]
  have hal : baseAt c0 size % 2 ^ v.size = 0 := by
    rw [← hvb]
    exact hval.aligned
  have hba := baseAt_of_aligned hsz hal
  refine ⟨?_, hval, hsz, by rw [hvb, hba]⟩
  rw [← hknet]
  exact hmem

/-- Soundness of the climb: whatever `search_parent`'s loop returns is a
member at or above the start level, keyed at the matching ancestor base
of `c0`. -/
theorem spGo_sound {m : CidrMap} (hm : Inv m) (c0 : Nat) :
    ∀ k size net, 32 - size ≤ k → size ≤ 32 → net = baseAt c0 size →
    ∀ v, searchParentGo m net size = some v →
    (v.net, v) ∈ m ∧ ValidB v ∧ size ≤ v.size ∧ v.net = baseAt c0 v.size := by
  intro k
  induction k with
  | zero =>
    intro size net hf hs hb v heq
    have hsz : size = 32 := by omega
    subst hsz
    rw [searchParentGo] at heq
    cases hk : kfind m net with
    | none =>
      simp only [hk] at heq
      rw [if_pos (by omega)] at heq
      cases heq
    | some u =>
      simp only [hk] at heq
      by_cases hu : (32:Nat) ≤ u.size
      · rw [if_pos hu] at heq
        injection heq with hv
        subst hv
        exact probe_hit_sound hm hb hk hu
      · rw [if_neg hu, if_pos (by omega)] at heq
        cases heq
  | succ f ih =>
    intro size net hf hs hb v heq
    rw [searchParentGo] at heq
    -- the two probe-miss branches climb identically
    have hclimb : ∀ n t, spSkip (net >>> size) size = some (n, t) → ¬ 32 ≤ size →
        searchParentGo m ((n - 1) <<< t) (t + 1) = some v →
        (v.net, v) ∈ m ∧ ValidB v ∧ size ≤ v.size ∧ v.net = baseAt c0 v.size := by
      intro n t hsp h32 hrec
      rw [hb, baseAt_shiftr] at hsp
      obtain ⟨ht1, ht2, hodd, hneq, _⟩ := (spSkip_spec _ _ (by omega)).2 n t hsp
      have hn : n = c0 / 2 ^ t := by
        rw [hneq, shiftr_eq, div_pow_compose ht1]
      have hbase : (n - 1) <<< t = baseAt c0 (t + 1) := baseAt_step_odd hn hodd
      rw [hbase] at hrec
      obtain ⟨h1, h2, h3, h4⟩ := ih (t + 1) (baseAt c0 (t + 1)) (by omega) (by omega) rfl v hrec
      exact ⟨h1, h2, by omega, h4⟩
    cases hk : kfind m net with
    | none =>
      simp only [hk] at heq
      by_cases h32 : (32:Nat) ≤ size
      · rw [if_pos h32] at heq
        cases heq
      · rw [if_neg h32] at heq
        split at heq
        · cases heq
        · rename_i n t hsp
          exact hclimb n t hsp h32 heq
    | some u =>
      simp only [hk] at heq
      by_cases hu : size ≤ u.size
      · rw [if_pos hu] at heq
        injection heq with hv
        subst hv
        exact probe_hit_sound hm hb hk hu
      · rw [if_neg hu] at heq
        by_cases h32 : (32:Nat) ≤ size
        · rw [if_pos h32] at heq
          cases heq
        · rw [if_neg h32] at heq
          split at heq
          · cases heq
          · rename_i n t hsp
            exact hclimb n t hsp h32 heq

/-- Completeness of the climb: if some member sits at or above the start
level on the ancestor chain of `c0`, the walk finds a result. -/
theorem spGo_complete {m : CidrMap} (hm : Inv m) {c0 : Nat} (hc0 : c0 < 2 ^ 32) :
    ∀ k size net, 32 - size ≤ k → size ≤ 32 → net = baseAt c0 size →
    (∃ p ∈ m, size ≤ p.2.size ∧ p.2.net = baseAt c0 p.2.size) →
    (searchParentGo m net size).isSome := by
  intro k
  induction k with
  | zero =>
    intro size net hf hs hb hw
    obtain ⟨p, hp, hps, hpb⟩ := hw
    obtain ⟨hval, hkey⟩ := hm.entryOk p hp
    have hsz : size = 32 := by omega
    subst hsz
    have hp32 : p.2.size = 32 := by
      have := hval.size_le
      omega
    have hnet : p.2.net = net := by
      rw [hpb, hp32, hb]
    have hfind : kfind m net = some p.2 := by
      rw [← hnet]
      refine kfind_of_mem hm.keyLt ?_
      rw [← hkey]
      exact hp
    rw [searchParentGo]
    simp only [hfind]
    rw [if_pos (by omega)]
    rfl
  | succ f ih =>
    intro size net hf hs hb hw
    obtain ⟨p, hp, hps, hpb⟩ := hw
    obtain ⟨hval, hkey⟩ := hm.entryOk p hp
    have hpmem : (p.2.net, p.2) ∈ m := by
      rw [← hkey]
      exact hp
    by_cases hpn : p.2.net = net
    · -- the probe at this very level hits
      have hfind : kfind m net = some p.2 := by
        rw [← hpn]
        exact kfind_of_mem hm.keyLt hpmem
      rw [searchParentGo]
      simp only [hfind]
      rw [if_pos hps]
      rfl
    · -- the member is strictly higher: climb
      have h32 : size < 32 := by
        rcases Nat.eq_or_lt_of_le hs with h | h
        · exfalso
          have hp32 : p.2.size = 32 := by
            have := hval.size_le
            omega
          refine hpn ?_
          rw [hpb, hp32, hb, h]
        · exact h
      have hshift : net >>> size = c0 >>> size := by
        rw [hb, baseAt_shiftr]
      cases hsp : spSkip (net >>> size) size with
      | none =>
        exfalso
        rw [hshift] at hsp
        have hz := (spSkip_spec _ _ h32).1 hsp
        have hlt : c0 >>> size < 2 ^ (32 - size) := by
          rw [shiftr_eq]
          have h2 : (2:Nat) ^ 32 = 2 ^ (32 - size) * 2 ^ size := by
            rw [← pow_add]
            congr 1
            omega
          rw [Nat.div_lt_iff_lt_mul (pow_pos2 size), ← h2]
          exact hc0
        have hz0 : c0 >>> size = 0 := by
          rw [Nat.mod_eq_of_lt hlt] at hz
          exact hz
        -- every ancestor base from here up equals net, in particular the member's
        have hnet0 : net = 0 := by
          rw [hb]
          unfold baseAt
          rw [hz0]
          exact Nat.zero_shiftLeft _
        have hdiv0 : c0 / 2 ^ p.2.size = 0 := by
          have h1 : c0 / 2 ^ size = 0 := by
            rw [← shiftr_eq]
            exact hz0
          have h2 := @div_pow_compose c0 size p.2.size hps
          rw [h1, Nat.zero_div] at h2
          exact h2.symm
        refine hpn ?_
        rw [hpb, hnet0]
        unfold baseAt
        rw [shiftr_eq, hdiv0]
        exact Nat.zero_shiftLeft _
      | some pr =>
        obtain ⟨n, t⟩ := pr
        have hsp2 := hsp
        rw [hshift] at hsp2
        obtain ⟨ht1, ht2, hodd, hneq, hzs⟩ := (spSkip_spec _ _ h32).2 n t hsp2
        have hn : n = c0 / 2 ^ t := by
          rw [hneq, shiftr_eq, div_pow_compose ht1]
        have hbase : (n - 1) <<< t = baseAt c0 (t + 1) := baseAt_step_odd hn hodd
        -- the member must live at level t+1 or above
        have hwsize : t + 1 ≤ p.2.size := by
          by_contra hcon
          have hle : p.2.size ≤ t := by omega
          have hzbits : ∀ i, size ≤ i → i < t → c0 / 2 ^ i % 2 = 0 := by
            intro i hi1 hi2
            have h0 := hzs (i - size) (by omega)
            rw [shiftr_eq, div_pow_compose hi1] at h0
            exact h0
          have hcc := baseAt_const_range hzbits p.2.size hps hle
          refine hpn ?_
          rw [hpb, hcc, ← hb]
        -- the recursive walk from the next level succeeds
        have hrec : (searchParentGo m ((n - 1) <<< t) (t + 1)).isSome := by
          rw [hbase]
          exact ih (t + 1) (baseAt c0 (t + 1)) (by omega) (by omega) rfl
            ⟨p, hp, hwsize, hpb⟩
        rw [searchParentGo]
        cases hk : kfind m net with
        | none =>
          simp only [hk]
          rw [if_neg (by omega)]
          split
          · rename_i hcontra
            rw [hsp] at hcontra
            cases hcontra
          · rename_i n2 t2 hsome
            rw [hsp] at hsome
            simp only [Option.some.injEq, Prod.mk.injEq] at hsome
            obtain ⟨rfl, rfl⟩ := hsome
            exact hrec
        | some u =>
          simp only [hk]
          by_cases hu : size ≤ u.size
          · rw [if_pos hu]
            rfl
          · rw [if_neg hu, if_neg (by omega)]
            split
            · rename_i hcontra
              rw [hsp] at hcontra
              cases hcontra
            · rename_i n2 t2 hsome
              rw [hsp] at hsome
              simp only [Option.some.injEq, Prod.mk.injEq] at hsome
              obtain ⟨rfl, rfl⟩ := hsome
              exact hrec

theorem valid_net_baseAt {c : Ipv4Cidr} (hc : ValidB c) :
    c.net = baseAt c.net c.size := by
  rw [baseAt_eq_sub, hc.aligned]
  omega

/-- A containing valid block sits exactly at the matching ancestor base of
the contained block. -/
theorem contains_net_baseAt {w c : Ipv4Cidr} (hw : ValidB w) (hc : ValidB c)
    (h : w.containsCidr c = true) : w.net = baseAt c.net w.size := by
  unfold Ipv4Cidr.containsCidr at h
  have halign : baseAt w.net w.size = w.net := (valid_net_baseAt hw).symm
  split at h
  · rename_i h32
    have h0 := hw.net_eq_zero h32
    rw [h0, h32]
    unfold baseAt
    have hz : c.net >>> 32 = 0 := by
      rw [shiftr_eq]
      exact Nat.div_eq_of_lt hc.net_lt
    rw [hz]
    exact (Nat.zero_shiftLeft _).symm
  · split at h
    · cases h
    · rw [beq_iff_eq] at h
      rw [← halign]
      unfold baseAt
      rw [h]

/-- C4, soundness direction: a returned block is a member that contains
the query. -/
theorem searchParent_sound {m : CidrMap} (hm : Inv m) {c : Ipv4Cidr} (hc : ValidB c)
    {v : Ipv4Cidr} (h : searchParent m c = some v) :
    (v.net, v) ∈ m ∧ ValidB v ∧ v.containsCidr c = true := by
  obtain ⟨h1, h2, h3, h4⟩ := spGo_sound hm c.net 33 c.size c.net (by omega)
    hc.size_le (valid_net_baseAt hc) v h
  refine ⟨h1, h2, ?_⟩
  unfold Ipv4Cidr.containsCidr
  split
  · rfl
  · rw [if_neg (by omega), h4, baseAt_shiftr]
    exact beq_self_eq_true _

/-- C4, completeness direction: a containing member forces a hit. -/
theorem searchParent_complete {m : CidrMap} (hm : Inv m) {c : Ipv4Cidr} (hc : ValidB c)
    {p : Nat × Ipv4Cidr} (hp : p ∈ m) (hcont : p.2.containsCidr c = true) :
    (searchParent m c).isSome := by
  have hvp := (hm.entryOk p hp).1
  refine spGo_complete hm hc.net_lt 33 c.size c.net (by omega) hc.size_le
    (valid_net_baseAt hc) ⟨p, hp, ?_, ?_⟩
  · exact contains_size_le hvp hc hcont
  · exact contains_net_baseAt hvp hc hcont

/-- Only one member can contain a given block. -/
theorem contains_unique {m : CidrMap} (hm : Inv m) {c : Ipv4Cidr} (hc : ValidB c)
    {p q : Nat × Ipv4Cidr} (hp : p ∈ m) (hq : q ∈ m)
    (hpc : p.2.containsCidr c = true) (hqc : q.2.containsCidr c = true) : p = q := by
  by_contra hne
  rcases mem_disjoint hm hp hq hne with hd | hd <;>
  · have h1 := contains_mem (hm.entryOk p hp).1 hc hpc (@memA_loR c)
    have h2 := contains_mem (hm.entryOk q hq).1 hc hqc (@memA_loR c)
    unfold memA at h1 h2
    omega

/-- The list-level `contains_cidr` is exactly the existence of an
equal-or-ancestor member. -/
theorem containsCidrL_iff {m : CidrMap} (hm : Inv m) {c : Ipv4Cidr} (hc : ValidB c) :
    Ipv4CidrList.containsCidr m c = true ↔ ∃ p ∈ m, p.2.containsCidr c = true := by
  unfold Ipv4CidrList.containsCidr
  constructor
  · intro h
    obtain ⟨v, hv⟩ := Option.isSome_iff_exists.mp h
    obtain ⟨h1, h2, h3⟩ := searchParent_sound hm hc hv
    exact ⟨(v.net, v), h1, h3⟩
  · intro ⟨p, hp, hcont⟩
    exact searchParent_complete hm hc hp hcont

/-! ## Semantics of delete_in_range -/

theorem deleteInRange_snd (m : CidrMap) (c : Ipv4Cidr) :
    (deleteInRange m c).2 =
      ((m.filter fun p => c.toRange.1 ≤ p.1 && p.1 ≤ c.toRange.2 &&
        c.containsCidr p.2).map Prod.fst).foldl kerase m := rfl

theorem deleteInRange_fst (m : CidrMap) (c : Ipv4Cidr) :
    (deleteInRange m c).1 =
      !((m.filter fun p => c.toRange.1 ≤ p.1 && p.1 ≤ c.toRange.2 &&
        c.containsCidr p.2).map Prod.fst).isEmpty := rfl

/-- For an invariant map, the range restriction in `delete_in_range` is
redundant: the removed entries are exactly the members contained in `c`. -/
theorem deleteInRange_pred {m : CidrMap} (hm : Inv m) {c : Ipv4Cidr} (hc : ValidB c)
    {p : Nat × Ipv4Cidr} (hp : p ∈ m) :
    (c.toRange.1 ≤ p.1 && p.1 ≤ c.toRange.2 && c.containsCidr p.2) =
      c.containsCidr p.2 := by
  obtain ⟨hvp, hkey⟩ := hm.entryOk p hp
  by_cases hcp : c.containsCidr p.2 = true
  · have h1 := (contains_iff hc hvp).mp hcp
    have h4 := loR_eq hvp
    have h5 := loR_le_hiR p.2
    have hb1 : c.toRange.1 ≤ p.1 := by
      show loR c ≤ p.1
      omega
    have hb2 : p.1 ≤ c.toRange.2 := by
      show p.1 ≤ hiR c
      omega
    simp [hb1, hb2, hcp]
  · have hf : c.containsCidr p.2 = false := Bool.eq_false_iff.mpr hcp
    rw [hf, Bool.and_false]

theorem deleteInRange_spec {m : CidrMap} (hm : Inv m) {c : Ipv4Cidr} (hc : ValidB c) :
    Inv (deleteInRange m c).2 ∧
    (∀ x, x ∈ (deleteInRange m c).2 ↔ x ∈ m ∧ ¬ c.containsCidr x.2 = true) ∧
    ((deleteInRange m c).1 = false ↔ ∀ p ∈ m, ¬ c.containsCidr p.2 = true) ∧
    ((deleteInRange m c).1 = false → (deleteInRange m c).2 = m) := by
  have hsnd : (deleteInRange m c).2 = m.filter fun p =>
      !(c.toRange.1 ≤ p.1 && p.1 ≤ c.toRange.2 && c.containsCidr p.2) := by
    rw [deleteInRange_snd]
    exact foldl_kerase_eq_filter hm.keyLt _
  have hmem : ∀ x, x ∈ (deleteInRange m c).2 ↔ x ∈ m ∧ ¬ c.containsCidr x.2 = true := by
    intro x
    rw [hsnd, List.mem_filter]
    constructor
    · rintro ⟨h1, h2⟩
      rw [deleteInRange_pred hm hc h1] at h2
      rw [Bool.not_eq_true'] at h2
      exact ⟨h1, by rw [h2]; exact Bool.false_ne_true⟩
    · rintro ⟨h1, h2⟩
      refine ⟨h1, ?_⟩
      rw [deleteInRange_pred hm hc h1, Bool.not_eq_true']
      exact Bool.eq_false_iff.mpr h2
  have hflag : (deleteInRange m c).1 = false ↔ ∀ p ∈ m, ¬ c.containsCidr p.2 = true := by
    rw [deleteInRange_fst, Bool.not_eq_false', List.isEmpty_iff, List.map_eq_nil_iff,
      List.filter_eq_nil_iff]
    constructor
    · intro h p hp hcp
      refine h p hp ?_
      rw [deleteInRange_pred hm hc hp]
      exact hcp
    · intro h p hp hcp
      rw [deleteInRange_pred hm hc hp] at hcp
      exact h p hp hcp
  refine ⟨by rw [hsnd]; exact hm.filter _, hmem, hflag, ?_⟩
  · intro hfl
    rw [hsnd]
    refine List.filter_eq_self.mpr ?_
    intro p hp
    rw [deleteInRange_pred hm hc hp, Bool.not_eq_true']
    exact Bool.eq_false_iff.mpr (hflag.mp hfl p hp)

/-! ## Semantics of the sibling-merge loop -/

theorem parentB_net {c : Ipv4Cidr} (hc : ValidB c) (hs : c.size < 32) :
    parentB c = ⟨c.net / 2 ^ (c.size + 1) * 2 ^ (c.size + 1), c.size + 1⟩ := by
  unfold parentB Ipv4Cidr.make
  rcases Nat.eq_or_lt_of_le (Nat.succ_le_of_lt hs) with h31 | h31
  · have h0 : 31 - c.size = 0 := by omega
    rw [h0]
    simp only [if_pos rfl]
    have h32 : c.size + 1 = 32 := by omega
    have hz : c.net / 2 ^ (c.size + 1) = 0 := by
      refine Nat.div_eq_of_lt ?_
      rw [h32]
      exact hc.net_lt
    rw [hz, h32]
    simp
  · have h0 : ¬ (31 - c.size = 0) := by omega
    have h1 : 31 - c.size < 32 := by omega
    rw [if_neg h0, if_pos h1]
    have h2 : 32 - (31 - c.size) = c.size + 1 := by omega
    rw [h2, shiftr_eq, shiftl_eq]

/-- The merged block the insert loop builds from the pair key is exactly
the parent block of `c`. -/
theorem make_pair_parent {c : Ipv4Cidr} (hc : ValidB c) (hs : c.size < 32) :
    Ipv4Cidr.make (Ipv4CidrList.pairKey c) (31 - c.size) = parentB c := by
  have hsb := ValidB_sibB hc hs
  have hss : (sibB c).size = c.size := rfl
  have h1 : Ipv4Cidr.make (Ipv4CidrList.pairKey c) (31 - c.size) = parentB (sibB c) := rfl
  rw [h1, parentB_net hsb (by rw [hss]; exact hs), parentB_net hc hs]
  obtain ⟨hb1, hb2⟩ := parent_buckets hc hs
  have hq : (sibB c).net / 2 ^ ((sibB c).size + 1) = c.net / 2 ^ (c.size + 1) := by
    rw [hss]
    show Ipv4CidrList.pairKey c / 2 ^ (c.size + 1) = _
    omega
  rw [hq, hss]

/-- The member found at the pair key with the same size is the sibling
block itself. -/
theorem entry_at_pair {m : CidrMap} (hm : Inv m) {c v : Ipv4Cidr}
    (hk : kfind m (Ipv4CidrList.pairKey c) = some v)
    (hvs : v.size = c.size) : v = sibB c := by
  have hmem := kfind_mem hk
  obtain ⟨hvv, hkey⟩ := hm.entryOk _ hmem
  cases v with
  | mk n s =>
    have h1 : Ipv4CidrList.pairKey c = n := hkey
    have h2 : s = c.size := hvs
    unfold sibB
    rw [← h1, h2]

theorem no_merge_32 {c : Ipv4Cidr} (h32 : ¬ c.size < 32) : ∀ u, ¬ Mergeable u c := by
  intro u hmg
  obtain ⟨h1, h2, _, _⟩ := hmg
  omega

/-- When the probe at the pair key finds no same-size member, no member is
mergeable with `c` at all. -/
theorem no_sib_member {m : CidrMap} (hm : Inv m) {c : Ipv4Cidr} (hc : ValidB c)
    (hs : c.size < 32)
    (hnosib : ∀ v, kfind m (Ipv4CidrList.pairKey c) = some v → v.size ≠ c.size) :
    ∀ p ∈ m, ¬ Mergeable p.2 c := by
  intro p hp hmg
  have hvp := (hm.entryOk p hp).1
  have hps := mergeable_elim hvp hc hmg
  have hkey := (hm.entryOk p hp).2
  have hfind : kfind m (Ipv4CidrList.pairKey c) = some p.2 := by
    have h1 : p.1 = Ipv4CidrList.pairKey c := by
      rw [hkey, hps]
      rfl
    rw [← h1]
    exact kfind_of_mem hm.keyLt (by rw [show (p.1, p.2) = p from rfl]; exact hp)
  exact hnosib p.2 hfind (by rw [hps]; rfl)

/-- Disjointness from both halves gives disjointness from the parent. -/
theorem parent_disjoint_of {c x : Ipv4Cidr} (hc : ValidB c) (hs : c.size < 32)
    (h1 : hiR x < loR c ∨ hiR c < loR x)
    (h2 : hiR x < loR (sibB c) ∨ hiR (sibB c) < loR x) :
    hiR x < loR (parentB c) ∨ hiR (parentB c) < loR x := by
  obtain ⟨hps, hal, hlay⟩ := parent_layout hc hs
  have hp := ValidB_parentB hc hs
  have hsb := ValidB_sibB hc hs
  have hE : (2:Nat) ^ (c.size + 1) = 2 ^ c.size * 2 := pow_succ 2 c.size
  have he := pow_pos2 c.size
  rw [loR_eq hp, hiR_eq hp, hps]
  rw [loR_eq hc, hiR_eq hc] at h1
  rw [loR_eq hsb, hiR_eq hsb] at h2
  have hsn : (sibB c).net = Ipv4CidrList.pairKey c := rfl
  have hss : (sibB c).size = c.size := rfl
  rw [hsn, hss] at h2
  have hx := loR_le_hiR x
  omega

/-- Removing a member splits its coverage off. -/
theorem covers_kerase {m : CidrMap} (hm : Inv m) {kk : Nat} {v : Ipv4Cidr}
    (hv : (kk, v) ∈ m) (a : Nat) :
    covers m a ↔ covers (kerase m kk) a ∨ memA v a := by
  constructor
  · rintro ⟨⟨p1, p2⟩, hp, hma⟩
    by_cases hpk : p1 = kk
    · subst hpk
      have h1 : kfind m p1 = some p2 := kfind_of_mem hm.keyLt hp
      have h2 : kfind m p1 = some v := kfind_of_mem hm.keyLt hv
      rw [h1] at h2
      injection h2 with h3
      subst h3
      exact Or.inr hma
    · exact Or.inl ⟨(p1, p2), (mem_kerase hm.keyLt).mpr ⟨hp, hpk⟩, hma⟩
  · rintro (⟨p, hp, hma⟩ | hma)
    · exact ⟨p, (kerase_sublist m kk).mem hp, hma⟩
    · exact ⟨(kk, v), hv, hma⟩

/-- The plain insert at the end of the merge loop: preserves the
invariants and adds exactly the block's addresses. -/
theorem insertLoop_exit {m : CidrMap} {c : Ipv4Cidr} (hm : Inv m) (hc : ValidB c)
    (hdisj : ∀ p ∈ m, hiR p.2 < loR c ∨ hiR c < loR p.2)
    (hnm : ∀ p ∈ m, ¬ Mergeable p.2 c) :
    Inv (kinsert m c.net c) ∧
    (∀ a, covers (kinsert m c.net c) a ↔ covers m a ∨ memA c a) := by
  refine ⟨hm.kinsertInv hc hdisj hnm, ?_⟩
  intro a
  constructor
  · rintro ⟨p, hp, hma⟩
    rcases (mem_kinsert_net hm hdisj hc).mp hp with rfl | hp2
    · exact Or.inr hma
    · exact Or.inl ⟨p, hp2, hma⟩
  · rintro (⟨p, hp, hma⟩ | hma)
    · exact ⟨p, (mem_kinsert_net hm hdisj hc).mpr (Or.inr hp), hma⟩
    · exact ⟨(c.net, c), (mem_kinsert_net hm hdisj hc).mpr (Or.inl rfl), hma⟩

/-- Main property of the sibling-merge loop: starting from a map whose
members are all disjoint from `c`, it preserves the three invariants and
adds exactly the addresses of `c`. -/
theorem insertLoop_spec :
    ∀ k (m : CidrMap) (c : Ipv4Cidr), 32 - c.size ≤ k → Inv m → ValidB c →
    (∀ p ∈ m, hiR p.2 < loR c ∨ hiR c < loR p.2) →
    Inv (insertLoop m c) ∧
    (∀ a, covers (insertLoop m c) a ↔ covers m a ∨ memA c a) := by
  intro k
  induction k with
  | zero =>
    intro m c hk hm hc hdisj
    have h32 : ¬ c.size < 32 := by omega
    rw [insertLoop, if_neg h32]
    exact insertLoop_exit hm hc hdisj fun p hp => no_merge_32 h32 p.2
  | succ f ih =>
    intro m c hk hm hc hdisj
    by_cases hs : c.size < 32
    · rw [insertLoop, if_pos hs]
      cases hk2 : kfind m (Ipv4CidrList.pairKey c) with
      | none =>
        simp only [hk2]
        refine insertLoop_exit hm hc hdisj ?_
        refine no_sib_member hm hc hs ?_
        intro v hv
        rw [hk2] at hv
        cases hv
      | some v =>
        simp only [hk2]
        by_cases hvs : v.size = c.size
        · rw [if_pos hvs, make_pair_parent hc hs]
          have hveq : v = sibB c := entry_at_pair hm hk2 hvs
          have hvmem : (Ipv4CidrList.pairKey c, v) ∈ m := kfind_mem hk2
          have hdisj2 : ∀ p ∈ kerase m (Ipv4CidrList.pairKey c),
              hiR p.2 < loR (parentB c) ∨ hiR (parentB c) < loR p.2 := by
            intro p hp
            obtain ⟨hp1, hp2⟩ := (mem_kerase hm.keyLt).mp hp
            have h1 := hdisj p hp1
            have hne : p ≠ (Ipv4CidrList.pairKey c, v) := by
              intro heq
              exact hp2 (by rw [heq])
            have h2 := mem_disjoint hm hp1 hvmem hne
            rw [hveq] at h2
            exact parent_disjoint_of hc hs h1 h2
          obtain ⟨hI, hC⟩ := ih (kerase m (Ipv4CidrList.pairKey c)) (parentB c)
            (by rw [parentB_size hc hs]; omega) (hm.kerase _)
            (ValidB_parentB hc hs) hdisj2
          refine ⟨hI, ?_⟩
          intro a
          rw [hC a, parent_covers hc hs a, covers_kerase hm hvmem a, hveq]
          tauto
        · rw [if_neg hvs]
          refine insertLoop_exit hm hc hdisj ?_
          refine no_sib_member hm hc hs ?_
          intro w hw
          rw [hk2] at hw
          injection hw with hweq
          subst hweq
          exact hvs
    · rw [insertLoop, if_neg hs]
      exact insertLoop_exit hm hc hdisj fun p hp => no_merge_32 hs p.2

/-! ## Semantics of insert -/

theorem insert_spec {m : CidrMap} (hm : Inv m) {c : Ipv4Cidr} (hc : ValidB c) :
    Inv (insert m c).2 ∧
    (∀ a, covers (insert m c).2 a ↔ covers m a ∨ memA c a) ∧
    ((insert m c).1 = false → (insert m c).2 = m) := by
  obtain ⟨hI1, hMem, hFlag, hUnc⟩ := deleteInRange_spec hm hc
  by_cases hcont : Ipv4CidrList.containsCidr (deleteInRange m c).2 c = true
  · -- some member still contains c, so the step-1 sweep removed nothing
    obtain ⟨w, hw, hwc⟩ := (containsCidrL_iff hI1 hc).mp hcont
    have hflagF : (deleteInRange m c).1 = false := by
      rw [hFlag]
      intro p hp hpc
      have hwm : w ∈ m := ((hMem w).mp hw).1
      have hwnot : ¬ c.containsCidr w.2 = true := ((hMem w).mp hw).2
      by_cases hpw : p = w
      · subst hpw
        exact hwnot hpc
      · have hd := mem_disjoint hm hp hwm hpw
        have hvp := (hm.entryOk p hp).1
        have hvw := (hm.entryOk w hwm).1
        have h1 := (contains_iff hc hvp).mp hpc
        have h2 := (contains_iff hvw hc).mp hwc
        have h3 := loR_le_hiR p.2
        have h4 := loR_le_hiR c
        omega
    have hm1 : (deleteInRange m c).2 = m := hUnc hflagF
    have hins : insert m c = (false, m) := by
      show (if Ipv4CidrList.containsCidr (deleteInRange m c).2 c then
        ((false : Bool), (deleteInRange m c).2)
        else (true, insertLoop (deleteInRange m c).2 c)) = (false, m)
      rw [if_pos hcont, hm1]
    rw [hins]
    refine ⟨hm, ?_, fun _ => rfl⟩
    intro a
    constructor
    · intro h
      exact Or.inl h
    · rintro (h | h)
      · exact h
      · rw [hm1] at hw
        have hvw := (hm.entryOk w hw).1
        exact ⟨w, hw, contains_mem hvw hc hwc h⟩
  · -- insert proceeds to the merge loop on a map fully disjoint from c
    have hins : insert m c = (true, insertLoop (deleteInRange m c).2 c) := by
      show (if Ipv4CidrList.containsCidr (deleteInRange m c).2 c then
        ((false : Bool), (deleteInRange m c).2)
        else (true, insertLoop (deleteInRange m c).2 c)) = _
      rw [if_neg hcont]
    have hdisj : ∀ p ∈ (deleteInRange m c).2, hiR p.2 < loR c ∨ hiR c < loR p.2 := by
      intro p hp
      obtain ⟨hpm, hpc⟩ := (hMem p).mp hp
      have hvp := (hm.entryOk p hpm).1
      rcases block_dichotomy hc hvp with h | h | h | h
      · exact absurd h hpc
      · exact absurd ((containsCidrL_iff hI1 hc).mpr ⟨p, hp, h⟩) hcont
      · exact Or.inr h
      · exact Or.inl h
    obtain ⟨hI2, hC2⟩ := insertLoop_spec 33 (deleteInRange m c).2 c (by omega) hI1 hc hdisj
    rw [hins]
    refine ⟨hI2, ?_, fun h => Bool.noConfusion h⟩
    intro a
    rw [show ((true, insertLoop (deleteInRange m c).2 c) : Bool × CidrMap).2 =
      insertLoop (deleteInRange m c).2 c from rfl, hC2 a]
    constructor
    · rintro (⟨p, hp, hma⟩ | h)
      · exact Or.inl ⟨p, ((hMem p).mp hp).1, hma⟩
      · exact Or.inr h
    · rintro (⟨p, hp, hma⟩ | h)
      · by_cases hpc : c.containsCidr p.2 = true
        · exact Or.inr (contains_mem hc (hm.entryOk p hp).1 hpc hma)
        · exact Or.inl ⟨p, (hMem p).mpr ⟨hp, hpc⟩, hma⟩
      · exact Or.inr h

/-! ## Semantics of from_range -/

theorem Inv_nil : Inv ([] : CidrMap) :=
  ⟨fun p hp => absurd hp (List.not_mem_nil p), List.Pairwise.nil, List.Pairwise.nil⟩

theorem covers_nil (a : Nat) : ¬ covers ([] : CidrMap) a := by
  rintro ⟨p, hp, _⟩
  cases hp

theorem commonLevel_self (f : Nat) : commonLevel f f = 0 := by
  rw [commonLevel]
  simp

theorem commonLevel_pos {f t : Nat} (h : f ≠ t) : 1 ≤ commonLevel f t := by
  rw [commonLevel, if_neg h]
  omega

theorem commonLevel_shift (f t : Nat) :
    f >>> commonLevel f t = t >>> commonLevel f t := by
  induction f, t using commonLevel.induct with
  | case1 x => rfl
  | case2 f t h ih =>
    rw [commonLevel, if_neg h, Nat.add_comm, Nat.shiftRight_add, Nat.shiftRight_add]
    exact ih

theorem commonLevel_min : ∀ f t : Nat, f ≠ t →
    f >>> (commonLevel f t - 1) ≠ t >>> (commonLevel f t - 1) := by
  intro f t
  induction f, t using commonLevel.induct with
  | case1 x =>
    intro hx
    exact absurd rfl hx
  | case2 f t hne ih =>
    intro _
    rw [commonLevel, if_neg hne]
    simp only [Nat.add_sub_cancel]
    by_cases h2 : f >>> 1 = t >>> 1
    · -- the levels agree one step up, so they differ exactly at the bottom
      have h0 : commonLevel (f >>> 1) (t >>> 1) = 0 := by
        rw [commonLevel, if_pos h2]
      rw [h0]
      simpa using hne
    · have hpos := commonLevel_pos h2
      have hsplit : commonLevel (f >>> 1) (t >>> 1) =
          1 + (commonLevel (f >>> 1) (t >>> 1) - 1) := by omega
      rw [hsplit, Nat.shiftRight_add, Nat.shiftRight_add]
      exact ih h2

theorem commonLevel_le {k : Nat} : ∀ f t, f < 2 ^ k → t < 2 ^ k → commonLevel f t ≤ k := by
  induction k with
  | zero =>
    intro f t hf ht
    have h1 : f = 0 := by omega
    have h2 : t = 0 := by omega
    subst h1 h2
    rw [commonLevel_self]
  | succ k2 ih =>
    intro f t hf ht
    by_cases h : f = t
    · subst h
      rw [commonLevel_self]
      omega
    · rw [commonLevel, if_neg h]
      have h1 : f >>> 1 < 2 ^ k2 := by
        rw [Nat.shiftRight_one, Nat.div_lt_iff_lt_mul (by omega)]
        calc f < 2 ^ (k2 + 1) := hf
          _ = 2 ^ k2 * 2 := pow_succ 2 k2
      have h2 : t >>> 1 < 2 ^ k2 := by
        rw [Nat.shiftRight_one, Nat.div_lt_iff_lt_mul (by omega)]
        calc t < 2 ^ (k2 + 1) := ht
          _ = 2 ^ k2 * 2 := pow_succ 2 k2
      have := ih (f >>> 1) (t >>> 1) h1 h2
      omega

theorem commonLevel_le_of_shift_eq {k : Nat} :
    ∀ f t, f >>> k = t >>> k → commonLevel f t ≤ k := by
  induction k with
  | zero =>
    intro f t h
    simp only [Nat.shiftRight_zero] at h
    subst h
    rw [commonLevel_self]
  | succ k2 ih =>
    intro f t h
    by_cases hft : f = t
    · subst hft
      rw [commonLevel_self]
      omega
    · rw [commonLevel, if_neg hft]
      have h2 : f >>> 1 >>> k2 = t >>> 1 >>> k2 := by
        rw [← Nat.shiftRight_add, ← Nat.shiftRight_add, Nat.add_comm]
        exact h
      have := ih (f >>> 1) (t >>> 1) h2
      omega

/-- At the first differing level, the two endpoints are the two halves. -/
theorem split_bits {lo hi : Nat} (hle : lo ≤ hi) (hne : lo ≠ hi) :
    lo >>> (commonLevel lo hi - 1) = 2 * (lo >>> commonLevel lo hi) ∧
    hi >>> (commonLevel lo hi - 1) = 2 * (lo >>> commonLevel lo hi) + 1 := by
  have hm1 := commonLevel_pos hne
  have hsh := commonLevel_shift lo hi
  have hmin := commonLevel_min lo hi hne
  have hlo2 : lo >>> commonLevel lo hi = lo >>> (commonLevel lo hi - 1) >>> 1 := by
    rw [← Nat.shiftRight_add]
    congr 1
    omega
  have hhi2 : hi >>> commonLevel lo hi = hi >>> (commonLevel lo hi - 1) >>> 1 := by
    rw [← Nat.shiftRight_add]
    congr 1
    omega
  have hmono : lo >>> (commonLevel lo hi - 1) ≤ hi >>> (commonLevel lo hi - 1) := by
    rw [shiftr_eq, shiftr_eq]
    exact Nat.div_le_div_right hle
  rw [Nat.shiftRight_one] at hlo2 hhi2
  omega

/-- The block computed at the top of `build`, for u32 inputs: the aligned
block at the common-prefix level, based at `lo`. -/
theorem build_block_eq {lo hi : Nat} (hle : lo ≤ hi) (hhi : hi < 2 ^ 32) :
    Ipv4Cidr.make (if commonLevel lo hi = 32 then 0
        else (lo >>> commonLevel lo hi) <<< commonLevel lo hi)
        (32 - commonLevel lo hi) =
      ⟨baseAt lo (commonLevel lo hi), commonLevel lo hi⟩ ∧
    ValidB ⟨baseAt lo (commonLevel lo hi), commonLevel lo hi⟩ := by
  have hcl : commonLevel lo hi ≤ 32 := commonLevel_le lo hi (by omega) hhi
  refine ⟨?_, hcl, lt_of_le_of_lt (baseAt_le lo _) (by omega), baseAt_mod lo _⟩
  unfold Ipv4Cidr.make
  by_cases h32 : commonLevel lo hi = 32
  · rw [if_pos h32]
    have hmask : 32 - commonLevel lo hi = 0 := by omega
    have hz : lo >>> 32 = 0 := by
      rw [shiftr_eq]
      exact Nat.div_eq_of_lt (by omega)
    rw [hmask, h32]
    unfold baseAt
    rw [hz, Nat.zero_shiftLeft]
    simp
  · rw [if_neg h32]
    by_cases h0 : commonLevel lo hi = 0
    · have hmask : ¬ (32 - commonLevel lo hi = 0) := by omega
      have hmask2 : ¬ (32 - commonLevel lo hi < 32) := by omega
      rw [if_neg hmask, if_neg hmask2, h0]
      rfl
    · have hmask0 : ¬ (32 - commonLevel lo hi = 0) := by omega
      have hmask32 : 32 - commonLevel lo hi < 32 := by omega
      rw [if_neg hmask0, if_pos hmask32]
      have hmm : 32 - (32 - commonLevel lo hi) = commonLevel lo hi := by omega
      rw [hmm]
      have hnet : ((lo >>> commonLevel lo hi) <<< commonLevel lo hi >>>
          commonLevel lo hi) <<< commonLevel lo hi = baseAt lo (commonLevel lo hi) := by
        rw [show (lo >>> commonLevel lo hi) <<< commonLevel lo hi =
          baseAt lo (commonLevel lo hi) from rfl, baseAt_shiftr]
        rfl
      rw [hnet]

/-- One unfolding step of the fueled `build`. -/
theorem buildFuel_succ (fuel lo hi : Nat) (l : CidrMap) :
    buildFuel (fuel + 1) lo hi l =
      (if (Ipv4Cidr.make (if commonLevel lo hi = 32 then 0
            else (lo >>> commonLevel lo hi) <<< commonLevel lo hi)
            (32 - commonLevel lo hi)).toRange = (lo, hi) then
        some (insert l (Ipv4Cidr.make (if commonLevel lo hi = 32 then 0
            else (lo >>> commonLevel lo hi) <<< commonLevel lo hi)
            (32 - commonLevel lo hi))).2
      else
        match buildFuel fuel lo ((((lo >>> commonLevel lo hi) <<< 1) + 1) <<<
            (commonLevel lo hi - 1) - 1) l with
        | none => none
        | some l1 => buildFuel fuel ((((lo >>> commonLevel lo hi) <<< 1) + 1) <<<
            (commonLevel lo hi - 1)) hi l1) := rfl

/-- The fueled `build` succeeds and computes the minimal decomposition of
`[lo, hi]`, merged into the accumulator, whenever its fuel exceeds the
common-prefix level. -/
theorem buildFuel_spec :
    ∀ fuel lo hi l, lo ≤ hi → hi < 2 ^ 32 → commonLevel lo hi < fuel → Inv l →
    ∃ r, buildFuel fuel lo hi l = some r ∧ Inv r ∧
      (∀ a, covers r a ↔ covers l a ∨ (lo ≤ a ∧ a ≤ hi)) := by
  intro fuel
  induction fuel with
  | zero =>
    intro lo hi l hle hhi hcl hl
    exact absurd hcl (Nat.not_lt_zero _)
  | succ fu ih =>
    intro lo hi l hle hhi hcl hl
    obtain ⟨hblock, hbval⟩ := build_block_eq hle hhi
    rw [buildFuel_succ, hblock]
    by_cases hleaf : (⟨baseAt lo (commonLevel lo hi), commonLevel lo hi⟩ :
        Ipv4Cidr).toRange = (lo, hi)
    · rw [if_pos hleaf]
      obtain ⟨hI, hC, _⟩ := insert_spec hl hbval
      refine ⟨_, rfl, hI, ?_⟩
      intro a
      rw [hC a]
      have hmem : memA (⟨baseAt lo (commonLevel lo hi), commonLevel lo hi⟩ :
          Ipv4Cidr) a ↔ (lo ≤ a ∧ a ≤ hi) := by
        unfold memA loR hiR
        rw [hleaf]
      rw [hmem]
    · rw [if_neg hleaf]
      -- the leaf test failing forces a genuine split
      have hne : lo ≠ hi := by
        intro heq
        subst heq
        refine hleaf ?_
        rw [commonLevel_self]
        unfold baseAt
        rw [Nat.shiftRight_zero, Nat.shiftLeft_zero]
        rw [toRange_eq]
        · simp
        · rw [commonLevel_self] at hbval
          unfold baseAt at hbval
          rw [Nat.shiftRight_zero, Nat.shiftLeft_zero] at hbval
          exact hbval
      obtain ⟨hs1, hs2⟩ := split_bits hle hne
      have hm1 := commonLevel_pos hne
      have hEp : (0:Nat) < 2 ^ (commonLevel lo hi - 1) := pow_pos2 _
      set q := lo >>> commonLevel lo hi with hqdef
      -- the midpoint in arithmetic form
      have hmid : ((q <<< 1) + 1) <<< (commonLevel lo hi - 1) =
          (2 * q + 1) * 2 ^ (commonLevel lo hi - 1) := by
        rw [shiftl_eq, shiftl_eq, pow_one]
        ring
      have hlodiv : lo / 2 ^ (commonLevel lo hi - 1) = 2 * q := by
        rw [← shiftr_eq]
        exact hs1
      have hhidiv : hi / 2 ^ (commonLevel lo hi - 1) = 2 * q + 1 := by
        rw [← shiftr_eq]
        exact hs2
      have hlobnd := (@div_eq_iff_bounds (2 ^ (commonLevel lo hi - 1)) lo (2 * q) hEp).mp hlodiv
      have hhibnd := (@div_eq_iff_bounds (2 ^ (commonLevel lo hi - 1)) hi (2 * q + 1) hEp).mp hhidiv
      have hexp : (2 * q + 1) * 2 ^ (commonLevel lo hi - 1) =
          2 * q * 2 ^ (commonLevel lo hi - 1) + 2 ^ (commonLevel lo hi - 1) := by ring
      have hltmid : lo < (2 * q + 1) * 2 ^ (commonLevel lo hi - 1) := by omega
      have hmidle : (2 * q + 1) * 2 ^ (commonLevel lo hi - 1) ≤ hi := hhibnd.1
      -- levels strictly drop on both sides
      have hclL : commonLevel lo ((2 * q + 1) * 2 ^ (commonLevel lo hi - 1) - 1) ≤
          commonLevel lo hi - 1 := by
        refine commonLevel_le_of_shift_eq lo _ ?_
        have hB : ((2 * q + 1) * 2 ^ (commonLevel lo hi - 1) - 1) >>>
            (commonLevel lo hi - 1) = 2 * q := by
          rw [shiftr_eq, div_eq_iff_bounds hEp]
          omega
        rw [hs1, hB]
      have hclR : commonLevel ((2 * q + 1) * 2 ^ (commonLevel lo hi - 1)) hi ≤
          commonLevel lo hi - 1 := by
        refine commonLevel_le_of_shift_eq _ hi ?_
        have hB : ((2 * q + 1) * 2 ^ (commonLevel lo hi - 1)) >>>
            (commonLevel lo hi - 1) = 2 * q + 1 := by
          rw [shiftr_eq, div_eq_iff_bounds hEp]
          omega
        rw [hs2, hB]
      rw [hmid]
      obtain ⟨l1, heq1, hI1, hc1⟩ := ih lo
        ((2 * q + 1) * 2 ^ (commonLevel lo hi - 1) - 1) l
        (by omega) (by omega) (by omega) hl
      rw [heq1]
      obtain ⟨r, heq2, hI2, hc2⟩ := ih
        ((2 * q + 1) * 2 ^ (commonLevel lo hi - 1)) hi l1
        (by omega) hhi (by omega) hI1
      refine ⟨r, by simpa using heq2, hI2, ?_⟩
      intro a
      rw [hc2 a, hc1 a]
      constructor
      · rintro ((h | h) | h)
        · exact Or.inl h
        · exact Or.inr (by omega)
        · exact Or.inr (by omega)
      · rintro (h | h)
        · exact Or.inl (Or.inl h)
        · by_cases hxa : a < (2 * q + 1) * 2 ^ (commonLevel lo hi - 1)
          · exact Or.inl (Or.inr (by omega))
          · exact Or.inr (by omega)

/-- `from_range` produces an invariant map covering exactly `[lo, hi]`. -/
theorem fromRange_spec (lo hi : Nat) (hhi : hi < 2 ^ 32) :
    Inv (fromRange lo hi) ∧
    (∀ a, covers (fromRange lo hi) a ↔ lo ≤ a ∧ a ≤ hi) := by
  unfold fromRange
  by_cases h : lo > hi
  · rw [if_pos h]
    refine ⟨Inv_nil, fun a => ?_⟩
    constructor
    · intro h2
      exact absurd h2 (covers_nil a)
    · intro h2
      omega
  · rw [if_neg h]
    obtain ⟨r, heq, hI, hc⟩ := buildFuel_spec 33 lo hi [] (by omega) hhi
      (by have := commonLevel_le lo hi (by omega) hhi; omega) Inv_nil
    rw [heq]
    refine ⟨hI, fun a => ?_⟩
    show covers r a ↔ _
    rw [hc a]
    constructor
    · rintro (h2 | h2)
      · exact absurd h2 (covers_nil a)
      · exact h2
    · intro h2
      exact Or.inr h2

/-! ## Semantics of remove -/

/-- Unfolding of `remove` in terms of its pieces. -/
theorem remove_eq (m : CidrMap) (c : Ipv4Cidr) :
    remove m c =
      if (deleteInRange m c).1 then (true, (deleteInRange m c).2)
      else
        match searchParent (deleteInRange m c).2 c with
        | none => (true, (deleteInRange m c).2)
        | some v =>
          if v = c then (false, (deleteInRange m c).2)
          else
            (true, ((if v.toRange.1 < c.toRange.1 then
                      [(v.toRange.1, c.toRange.1 - 1)] else []) ++
                    (if c.toRange.2 < v.toRange.2 then
                      [(c.toRange.2 + 1, v.toRange.2)] else [])).foldl
              (fun acc r => (fromRange r.1 r.2).foldl (fun a p => (insert a p.2).2) acc)
              (kerase (deleteInRange m c).2 v.net)) := rfl

/-- Folding `insert` over a list of valid blocks adds exactly their
addresses. -/
theorem foldl_insert_spec :
    ∀ (bs : CidrMap) (acc : CidrMap), Inv acc → (∀ p ∈ bs, ValidB p.2) →
    Inv (bs.foldl (fun a p => (insert a p.2).2) acc) ∧
    (∀ x, covers (bs.foldl (fun a p => (insert a p.2).2) acc) x ↔
      covers acc x ∨ ∃ p ∈ bs, memA p.2 x) := by
  intro bs
  induction bs with
  | nil =>
    intro acc hacc hv
    refine ⟨hacc, fun x => ?_⟩
    simp
  | cons b rest ihb =>
    intro acc hacc hv
    obtain ⟨hI, hC, _⟩ := insert_spec hacc (hv b (List.mem_cons_self _ _))
    obtain ⟨hI2, hC2⟩ := ihb (insert acc b.2).2 hI
      (fun p hp => hv p (List.mem_cons_of_mem _ hp))
    simp only [List.foldl_cons]
    refine ⟨hI2, fun x => ?_⟩
    rw [hC2 x, hC x]
    constructor
    · rintro ((h | h) | ⟨p, hp, hmp⟩)
      · exact Or.inl h
      · exact Or.inr ⟨b, List.mem_cons_self _ _, h⟩
      · exact Or.inr ⟨p, List.mem_cons_of_mem _ hp, hmp⟩
    · rintro (h | ⟨p, hp, hmp⟩)
      · exact Or.inl (Or.inl h)
      · rcases List.mem_cons.mp hp with rfl | hp2
        · exact Or.inl (Or.inr hmp)
        · exact Or.inr ⟨p, hp2, hmp⟩

/-- Folding range-insertions over a list of ranges adds exactly the union
of the ranges. -/
theorem foldl_ranges_spec :
    ∀ (rs : List (Nat × Nat)) (acc : CidrMap), Inv acc →
      (∀ r ∈ rs, r.2 < 2 ^ 32) →
    Inv (rs.foldl (fun acc r =>
        (fromRange r.1 r.2).foldl (fun a p => (insert a p.2).2) acc) acc) ∧
    (∀ b, covers (rs.foldl (fun acc r =>
        (fromRange r.1 r.2).foldl (fun a p => (insert a p.2).2) acc) acc) b ↔
      covers acc b ∨ ∃ r ∈ rs, r.1 ≤ b ∧ b ≤ r.2) := by
  intro rs
  induction rs with
  | nil =>
    intro acc hacc hr
    refine ⟨hacc, fun b => ?_⟩
    simp
  | cons r rest ih =>
    intro acc hacc hr
    obtain ⟨hfrI, hfrC⟩ := fromRange_spec r.1 r.2 (hr r (List.mem_cons_self _ _))
    obtain ⟨h1, h2⟩ := foldl_insert_spec (fromRange r.1 r.2) acc hacc
      (fun p hp => (hfrI.entryOk p hp).1)
    obtain ⟨h3, h4⟩ := ih _ h1 (fun q hq => hr q (List.mem_cons_of_mem _ hq))
    simp only [List.foldl_cons]
    refine ⟨h3, fun b => ?_⟩
    rw [h4 b, h2 b]
    have h5 : (∃ p ∈ fromRange r.1 r.2, memA p.2 b) ↔ r.1 ≤ b ∧ b ≤ r.2 := hfrC b
    rw [h5]
    constructor
    · rintro ((h | h) | ⟨q, hq, hqb⟩)
      · exact Or.inl h
      · exact Or.inr ⟨r, List.mem_cons_self _ _, h⟩
      · exact Or.inr ⟨q, List.mem_cons_of_mem _ hq, hqb⟩
    · rintro (h | ⟨q, hq, hqb⟩)
      · exact Or.inl (Or.inl h)
      · rcases List.mem_cons.mp hq with rfl | hq2
        · exact Or.inl (Or.inr hqb)
        · exact Or.inr ⟨q, hq2, hqb⟩

/-- Coverage cannot survive the erasure of the only member containing the
address. -/
theorem covers_kerase_not {m : CidrMap} (hm : Inv m) {v : Ipv4Cidr}
    (hv : (v.net, v) ∈ m) {a : Nat}
    (h : covers (kerase m v.net) a) : ¬ memA v a := by
  obtain ⟨p, hp, hma⟩ := h
  obtain ⟨hp1, hp2⟩ := (mem_kerase hm.keyLt).mp hp
  intro hav
  have hne : p ≠ (v.net, v) := by
    intro heq
    exact hp2 (by rw [heq])
  have hd : hiR p.2 < loR v ∨ hiR v < loR p.2 := mem_disjoint hm hp1 hv hne
  unfold memA at hma hav
  omega

/-- Full semantics of `remove` on an invariant map: the result keeps the
invariants, the address set loses exactly `c`, the reported flag is always
`true`, and the map is untouched exactly when no member overlaps `c`. -/
theorem remove_spec {m : CidrMap} (hm : Inv m) {c : Ipv4Cidr} (hc : ValidB c) :
    Inv (remove m c).2 ∧
    (∀ a, covers (remove m c).2 a ↔ covers m a ∧ ¬ memA c a) ∧
    (remove m c).1 = true ∧
    ((remove m c).2 = m ↔ ∀ p ∈ m, hiR p.2 < loR c ∨ hiR c < loR p.2) := by
  obtain ⟨hdi1, hdi2, hdi3, hdi4⟩ := deleteInRange_spec hm hc
  rw [remove_eq]
  by_cases hflag : (deleteInRange m c).1 = true
  · -- step 1 deleted the members contained in c
    rw [if_pos hflag]
    obtain ⟨u, hu, huc⟩ : ∃ u ∈ m, c.containsCidr u.2 = true := by
      by_contra hno
      push_neg at hno
      rw [hdi3.mpr (fun p hp h2 => hno p hp h2)] at hflag
      cases hflag
    have hvu := (hm.entryOk u hu).1
    have hcov : ∀ a, covers (deleteInRange m c).2 a ↔ covers m a ∧ ¬ memA c a := by
      intro a
      constructor
      · rintro ⟨p, hp, hma⟩
        obtain ⟨hp1, hp2⟩ := (hdi2 p).mp hp
        have hvp := (hm.entryOk p hp1).1
        refine ⟨⟨p, hp1, hma⟩, ?_⟩
        -- p is disjoint from c: it is not below c, and not above c either
        have hnotabove : ¬ p.2.containsCidr c = true := by
          intro habove
          have hne : p ≠ u := by
            intro heq
            exact hp2 (heq ▸ huc)
          rcases mem_disjoint hm hp1 hu hne with hd | hd <;>
          · have h1 := (contains_iff hc hvu).mp huc
            have h2 := (contains_iff hvp hc).mp habove
            have h3 := loR_le_hiR u.2
            have h4 := loR_le_hiR c
            omega
        rcases block_dichotomy hc hvp with h | h | h | h
        · exact absurd h hp2
        · exact absurd h hnotabove
        · unfold memA at hma ⊢
          omega
        · unfold memA at hma ⊢
          omega
      · rintro ⟨⟨p, hp, hma⟩, hnc⟩
        refine ⟨p, (hdi2 p).mpr ⟨hp, ?_⟩, hma⟩
        intro hpc
        exact hnc (contains_mem hc (hm.entryOk p hp).1 hpc hma)
    refine ⟨hdi1, hcov, rfl, ?_⟩
    constructor
    · intro heq
      exfalso
      have hu2 : u ∈ (deleteInRange m c).2 := heq.symm ▸ hu
      exact ((hdi2 u).mp hu2).2 huc
    · intro hdisj
      exfalso
      have h1 := (contains_iff hc hvu).mp huc
      have h2 := hdisj u hu
      have h3 := loR_le_hiR u.2
      have h4 := loR_le_hiR c
      omega
  · -- nothing was contained in c
    have hflagF : (deleteInRange m c).1 = false := by
      rcases Bool.eq_false_or_eq_true (deleteInRange m c).1 with h | h
      · exact absurd h hflag
      · exact h
    have hm1 : (deleteInRange m c).2 = m := hdi4 hflagF
    rw [if_neg hflag, hm1]
    split
    · -- no member contains c either: the map is returned unchanged
      rename_i hsp
      refine ⟨hm, ?_, rfl, ?_⟩
      · intro a
        constructor
        · intro h
          refine ⟨h, ?_⟩
          obtain ⟨p, hp, hma⟩ := h
          have hvp := (hm.entryOk p hp).1
          intro hca
          rcases block_dichotomy hc hvp with h2 | h2 | h2 | h2
          · exact hdi3.mp hflagF p hp h2
          · have := searchParent_complete hm hc hp h2
            rw [hsp] at this
            simp at this
          · unfold memA at hma hca
            omega
          · unfold memA at hma hca
            omega
        · exact fun h => h.1
      · constructor
        · intro _ p hp
          have hvp := (hm.entryOk p hp).1
          rcases block_dichotomy hc hvp with h2 | h2 | h2 | h2
          · exact absurd h2 (hdi3.mp hflagF p hp)
          · have := searchParent_complete hm hc hp h2
            rw [hsp] at this
            simp at this
          · exact Or.inr h2
          · exact Or.inl h2
        · intro _
          rfl
    · -- some strict ancestor v of c is a member: erase it and re-add the rest
      rename_i v hsp
      obtain ⟨hvmem, hvv, hvc⟩ := searchParent_sound hm hc hsp
      have hvne : ¬ v = c := by
        intro heq
        subst heq
        exact hdi3.mp hflagF (v.net, v) hvmem (contains_refl hc)
      rw [if_neg hvne]
      -- interval bookkeeping for the split
      have hcont := (contains_iff hvv hc).mp hvc
      have ha1 : v.toRange.1 = loR v := rfl
      have ha2 : c.toRange.1 = loR c := rfl
      have ha3 : c.toRange.2 = hiR c := rfl
      have ha4 : v.toRange.2 = hiR v := rfl
      have hlhc := loR_le_hiR c
      have hlhv := loR_le_hiR v
      have hv32 := hiR_lt_top hvv
      have hm2I : Inv (kerase m v.net) := hm.kerase v.net
      have hcovm : ∀ a, covers m a ↔ covers (kerase m v.net) a ∨ memA v a :=
        covers_kerase hm hvmem
      have hnotv : ∀ a, covers (kerase m v.net) a → ¬ memA v a :=
        fun a => covers_kerase_not hm hvmem
      -- the at most two residual ranges, folded back in via insert
      obtain ⟨hI2, hC2⟩ := foldl_ranges_spec
        ((if v.toRange.1 < c.toRange.1 then [(v.toRange.1, c.toRange.1 - 1)] else []) ++
         (if c.toRange.2 < v.toRange.2 then [(c.toRange.2 + 1, v.toRange.2)] else []))
        (kerase m v.net) hm2I
        (by
          intro r hr
          rcases List.mem_append.mp hr with h | h
          · by_cases hcnd : v.toRange.1 < c.toRange.1
            · rw [if_pos hcnd] at h
              rcases List.mem_singleton.mp h with rfl
              show c.toRange.1 - 1 < 2 ^ 32
              omega
            · rw [if_neg hcnd] at h
              exact absurd h (List.not_mem_nil _)
          · by_cases hcnd : c.toRange.2 < v.toRange.2
            · rw [if_pos hcnd] at h
              rcases List.mem_singleton.mp h with rfl
              show v.toRange.2 < 2 ^ 32
              omega
            · rw [if_neg hcnd] at h
              exact absurd h (List.not_mem_nil _))
      have hPP : ∀ b, (∃ r ∈ (if v.toRange.1 < c.toRange.1 then
              [(v.toRange.1, c.toRange.1 - 1)] else []) ++
            (if c.toRange.2 < v.toRange.2 then
              [(c.toRange.2 + 1, v.toRange.2)] else []), r.1 ≤ b ∧ b ≤ r.2) ↔
          (v.toRange.1 < c.toRange.1 ∧ v.toRange.1 ≤ b ∧ b ≤ c.toRange.1 - 1) ∨
          (c.toRange.2 < v.toRange.2 ∧ c.toRange.2 + 1 ≤ b ∧ b ≤ v.toRange.2) := by
        intro b
        constructor
        · rintro ⟨r, hr, h1, h2⟩
          rcases List.mem_append.mp hr with h | h
          · by_cases hcnd : v.toRange.1 < c.toRange.1
            · rw [if_pos hcnd] at h
              rcases List.mem_singleton.mp h with rfl
              exact Or.inl ⟨hcnd, h1, h2⟩
            · rw [if_neg hcnd] at h
              exact absurd h (List.not_mem_nil _)
          · by_cases hcnd : c.toRange.2 < v.toRange.2
            · rw [if_pos hcnd] at h
              rcases List.mem_singleton.mp h with rfl
              exact Or.inr ⟨hcnd, h1, h2⟩
            · rw [if_neg hcnd] at h
              exact absurd h (List.not_mem_nil _)
        · rintro (⟨hcnd, h1, h2⟩ | ⟨hcnd, h1, h2⟩)
          · refine ⟨(v.toRange.1, c.toRange.1 - 1),
              List.mem_append.mpr (Or.inl ?_), h1, h2⟩
            rw [if_pos hcnd]
            exact List.mem_singleton.mpr rfl
          · refine ⟨(c.toRange.2 + 1, v.toRange.2),
              List.mem_append.mpr (Or.inr ?_), h1, h2⟩
            rw [if_pos hcnd]
            exact List.mem_singleton.mpr rfl
      refine ⟨hI2, ?_, rfl, ?_⟩
      · intro a
        rw [hC2 a, hPP a, hcovm a]
        unfold memA
        by_cases hq : covers (kerase m v.net) a
        · have hnv := hnotv a hq
          unfold memA at hnv
          simp only [hq, true_or, true_and, true_iff]
          omega
        · simp only [hq, false_or]
          omega
      · constructor
        · intro heq
          exfalso
          have hmv : memA v (loR c) := by unfold memA; omega
          have hcv : covers m (loR c) := ⟨(v.net, v), hvmem, hmv⟩
          rw [← heq, hC2 (loR c), hPP (loR c)] at hcv
          rcases hcv with h | h
          · exact hnotv _ h hmv
          · omega
        · intro hdisj
          exfalso
          have h2 : hiR v < loR c ∨ hiR c < loR v := hdisj (v.net, v) hvmem
          omega

/-! ## Canonicity: an invariant map is determined by its address set -/

theorem block_ext {u v : Ipv4Cidr} (hn : u.net = v.net) (hs : u.size = v.size) :
    u = v := by
  cases u
  cases v
  simp_all

/-- A valid block contained in a block of greater-or-equal size contains it
back (the two intervals coincide). -/
theorem contains_antisymm_size {u v : Ipv4Cidr} (hu : ValidB u) (hv : ValidB v)
    (h : v.containsCidr u = true) (hsz : v.size ≤ u.size) :
    u.containsCidr v = true := by
  rw [contains_iff hv hu] at h
  rw [contains_iff hu hv]
  rw [loR_eq hu, loR_eq hv, hiR_eq hu, hiR_eq hv] at h ⊢
  have e1 : (2:Nat) ^ v.size ≤ 2 ^ u.size := Nat.pow_le_pow_right (by omega) hsz
  have e2 := pow_pos2 u.size
  have e3 := pow_pos2 v.size
  omega

/-- Mutual containment of valid blocks forces equality. -/
theorem contains_antisymm {u v : Ipv4Cidr} (hu : ValidB u) (hv : ValidB v)
    (h1 : u.containsCidr v = true) (h2 : v.containsCidr u = true) : u = v := by
  have hs1 := contains_size_le hu hv h1
  have hs2 := contains_size_le hv hu h2
  have hsz : u.size = v.size := Nat.le_antisymm hs2 hs1
  rw [contains_iff hu hv] at h1
  rw [contains_iff hv hu] at h2
  rw [loR_eq hu, loR_eq hv, hiR_eq hu, hiR_eq hv] at h1 h2
  exact block_ext (by omega) hsz

/-- Cover lemma: if an invariant map covers every address of a valid block,
then some single member contains the whole block (minimality forbids the
block being pieced together from smaller members). -/
theorem covered_member {m : CidrMap} (hm : Inv m) :
    ∀ (n : Nat) (B : Ipv4Cidr), B.size = n → ValidB B →
      (∀ a, memA B a → covers m a) →
      ∃ q ∈ m, q.2.containsCidr B = true := by
  intro n
  induction n with
  | zero =>
    intro B hBs hB hcov
    obtain ⟨q, hq, hqa⟩ := hcov (loR B) memA_loR
    have hvq := (hm.entryOk q hq).1
    have hbb := loR_le_hiR B
    refine ⟨q, hq, ?_⟩
    rcases block_dichotomy hvq hB with h | h | h | h
    · exact h
    · have h1 := contains_size_le hB hvq h
      exact contains_antisymm_size hvq hB h (by omega)
    · exfalso
      unfold memA at hqa
      omega
    · exfalso
      unfold memA at hqa
      omega
  | succ s ihn =>
    intro B hBs hB hcov
    have hs32 : s + 1 ≤ 32 := hBs ▸ hB.size_le
    have hn32 := hB.net_lt
    have hal : B.net % 2 ^ (s + 1) = 0 := by rw [← hBs]; exact hB.aligned
    have hpow : (2:Nat) ^ (s + 1) = 2 ^ s + 2 ^ s := by rw [pow_succ]; ring
    have hsp := pow_pos2 s
    have hsdvd : (2:Nat) ^ s ∣ B.net :=
      dvd_trans (pow_dvd_pow 2 (by omega)) (Nat.dvd_of_mod_eq_zero hal)
    have hhiB : hiR B = B.net + (2 ^ (s + 1) - 1) := by rw [hiR_eq hB, hBs]
    have hhi32 := hiR_lt_top hB
    have hVL : ValidB ⟨B.net, s⟩ := by
      refine ⟨?_, hn32, ?_⟩
      · show s ≤ 32
        omega
      · show B.net % 2 ^ s = 0
        obtain ⟨k, hk⟩ := hsdvd
        rw [hk]
        exact Nat.mul_mod_right _ _
    have hVR : ValidB ⟨B.net + 2 ^ s, s⟩ := by
      refine ⟨?_, ?_, ?_⟩
      · show s ≤ 32
        omega
      · show B.net + 2 ^ s < 2 ^ 32
        rw [hhiB] at hhi32
        omega
      · show (B.net + 2 ^ s) % 2 ^ s = 0
        obtain ⟨k, hk⟩ := hsdvd
        rw [hk]
        have hfac : (2:Nat) ^ s * k + 2 ^ s = 2 ^ s * (k + 1) := by ring
        rw [hfac]
        exact Nat.mul_mod_right _ _
    have hsubL : ∀ a, memA (⟨B.net, s⟩ : Ipv4Cidr) a → memA B a := by
      intro a ha
      have ha2 : B.net ≤ a ∧ a ≤ B.net + (2 ^ s - 1) := by
        unfold memA at ha
        rw [loR_eq hVL, hiR_eq hVL] at ha
        exact ha
      unfold memA
      rw [loR_eq hB, hiR_eq hB, hBs]
      omega
    have hsubR : ∀ a, memA (⟨B.net + 2 ^ s, s⟩ : Ipv4Cidr) a → memA B a := by
      intro a ha
      have ha2 : B.net + 2 ^ s ≤ a ∧ a ≤ B.net + 2 ^ s + (2 ^ s - 1) := by
        unfold memA at ha
        rw [loR_eq hVR, hiR_eq hVR] at ha
        exact ha
      unfold memA
      rw [loR_eq hB, hiR_eq hB, hBs]
      omega
    obtain ⟨qL, hqLmem, hqLc⟩ := ihn ⟨B.net, s⟩ rfl hVL
      (fun a ha => hcov a (hsubL a ha))
    obtain ⟨qR, hqRmem, hqRc⟩ := ihn ⟨B.net + 2 ^ s, s⟩ rfl hVR
      (fun a ha => hcov a (hsubR a ha))
    have hvqL := (hm.entryOk qL hqLmem).1
    have hvqR := (hm.entryOk qR hqRmem).1
    have hmemL : loR qL.2 ≤ B.net ∧ B.net ≤ hiR qL.2 := by
      have h0 := contains_mem hvqL hVL hqLc (@memA_loR ⟨B.net, s⟩)
      unfold memA at h0
      rw [loR_eq hVL] at h0
      exact h0
    have hmemR : loR qR.2 ≤ B.net + 2 ^ s ∧ B.net + 2 ^ s ≤ hiR qR.2 := by
      have h0 := contains_mem hvqR hVR hqRc (@memA_loR ⟨B.net + 2 ^ s, s⟩)
      unfold memA at h0
      rw [loR_eq hVR] at h0
      exact h0
    have hszL : s ≤ qL.2.size := contains_size_le hvqL hVL hqLc
    have hszR : s ≤ qR.2.size := contains_size_le hvqR hVR hqRc
    have hcaseL : qL.2.containsCidr B = true ∨ qL.2 = ⟨B.net, s⟩ := by
      rcases block_dichotomy hvqL hB with h | h | h | h
      · exact Or.inl h
      · have h2 := contains_size_le hB hvqL h
        by_cases hsz : qL.2.size = s + 1
        · exact Or.inl (contains_antisymm_size hvqL hB h (by omega))
        · have hLq : Ipv4Cidr.containsCidr ⟨B.net, s⟩ qL.2 = true :=
            contains_antisymm_size hVL hvqL hqLc
              (by show qL.2.size ≤ s; rw [hBs] at h2; omega)
          exact Or.inr (contains_antisymm hvqL hVL hqLc hLq)
      · exfalso
        rw [loR_eq hB] at h
        omega
      · exfalso
        rw [hiR_eq hB, hBs] at h
        omega
    have hcaseR : qR.2.containsCidr B = true ∨ qR.2 = ⟨B.net + 2 ^ s, s⟩ := by
      rcases block_dichotomy hvqR hB with h | h | h | h
      · exact Or.inl h
      · have h2 := contains_size_le hB hvqR h
        by_cases hsz : qR.2.size = s + 1
        · exact Or.inl (contains_antisymm_size hvqR hB h (by omega))
        · have hRq : Ipv4Cidr.containsCidr ⟨B.net + 2 ^ s, s⟩ qR.2 = true :=
            contains_antisymm_size hVR hvqR hqRc
              (by show qR.2.size ≤ s; rw [hBs] at h2; omega)
          exact Or.inr (contains_antisymm hvqR hVR hqRc hRq)
      · exfalso
        rw [loR_eq hB] at h
        omega
      · exfalso
        rw [hiR_eq hB, hBs] at h
        omega
    rcases hcaseL with hL | hLeq
    · exact ⟨qL, hqLmem, hL⟩
    rcases hcaseR with hR | hReq
    · exact ⟨qR, hqRmem, hR⟩
    exfalso
    have hne : qL ≠ qR := by
      intro heq
      have h0 : (⟨B.net, s⟩ : Ipv4Cidr) = ⟨B.net + 2 ^ s, s⟩ := by
        rw [← hLeq, heq, hReq]
      have hnet : B.net = B.net + 2 ^ s := congrArg Ipv4Cidr.net h0
      omega
    refine mem_nomerge hm hqLmem hqRmem hne ?_
    rw [hLeq, hReq]
    refine ⟨rfl, ?_, ?_, ?_⟩
    · show s < 32
      omega
    · show B.net ≠ B.net + 2 ^ s
      omega
    · show B.net >>> (s + 1) = (B.net + 2 ^ s) >>> (s + 1)
      rw [shiftr_eq, shiftr_eq]
      obtain ⟨t, ht⟩ := Nat.dvd_of_mod_eq_zero hal
      have hlt : (2:Nat) ^ s < 2 ^ (s + 1) := by omega
      rw [ht]
      have h1 : (2 ^ (s + 1) * t) / 2 ^ (s + 1) = t :=
        Nat.mul_div_cancel_left t (pow_pos2 _)
      have h2 : (2 ^ (s + 1) * t + 2 ^ s) / 2 ^ (s + 1) = t := by
        rw [Nat.add_comm, Nat.add_mul_div_left _ _ (pow_pos2 (s + 1)),
          Nat.div_eq_of_lt hlt]
        omega
      rw [h1, h2]

/-- A head block in one of two equal-coverage invariant maps cannot be
strictly smaller than the head block of the other. -/
theorem head_not_lt {kp : Nat} {vp : Ipv4Cidr} {r1 : CidrMap}
    {kq : Nat} {vq : Ipv4Cidr} {r2 : CidrMap}
    (h1 : Inv ((kp, vp) :: r1)) (h2 : Inv ((kq, vq) :: r2))
    (hcov : ∀ a, covers ((kp, vp) :: r1) a ↔ covers ((kq, vq) :: r2) a)
    (hlo : loR vp = loR vq) : ¬ vp.size < vq.size := by
  intro hlt
  have hvp : ValidB vp := (h1.entryOk _ (List.mem_cons_self _ _)).1
  have hvq : ValidB vq := (h2.entryOk _ (List.mem_cons_self _ _)).1
  have hs32 : vp.size < 32 := by
    have h5 : vq.size ≤ 32 := hvq.size_le
    omega
  -- the larger head contains the smaller one, hence also its whole parent
  have hqp : vq.containsCidr vp = true := by
    have hnet : vp.net = vq.net := by
      rw [loR_eq hvp, loR_eq hvq] at hlo
      exact hlo
    rw [contains_iff hvq hvp, loR_eq hvq, loR_eq hvp, hiR_eq hvq, hiR_eq hvp]
    have e1 : (2:Nat) ^ vp.size ≤ 2 ^ vq.size :=
      Nat.pow_le_pow_right (by omega) (by omega)
    have e2 := pow_pos2 vp.size
    omega
  have hPin : vq.containsCidr (parentB vp) = true :=
    contains_parent_of_child hvq hvp hs32 (by omega) (Or.inl hqp)
  -- the sibling of the small head is fully covered on the left map
  have hcovS : ∀ a, memA (sibB vp) a → covers ((kp, vp) :: r1) a := by
    intro a ha
    have h3 : memA (parentB vp) a := (parent_covers hvp hs32 a).mpr (Or.inr ha)
    have h4 : memA vq a := contains_mem hvq (ValidB_parentB hvp hs32) hPin h3
    exact (hcov a).mpr ⟨(kq, vq), List.mem_cons_self _ _, h4⟩
  obtain ⟨q0, hq0mem, hq0c⟩ := covered_member h1 (sibB vp).size (sibB vp) rfl
    (ValidB_sibB hvp hs32) hcovS
  have hvq0 := (h1.entryOk q0 hq0mem).1
  have hsize0 : (sibB vp).size ≤ q0.2.size :=
    contains_size_le hvq0 (ValidB_sibB hvp hs32) hq0c
  have hsize0a : vp.size ≤ q0.2.size := hsize0
  by_cases hq0sz : q0.2.size = vp.size
  · -- the sibling itself is a member: two mergeable siblings in one map
    have hsq : Ipv4Cidr.containsCidr (sibB vp) q0.2 = true :=
      contains_antisymm_size (ValidB_sibB hvp hs32) hvq0 hq0c
        (by show q0.2.size ≤ vp.size; omega)
    have heq : q0.2 = sibB vp :=
      contains_antisymm hvq0 (ValidB_sibB hvp hs32) hq0c hsq
    have hne0 : q0 ≠ (kp, vp) := by
      intro habs
      have hvs : vp = sibB vp := by rw [← heq, habs]
      have hnn : vp.net = Ipv4CidrList.pairKey vp := congrArg Ipv4Cidr.net hvs
      exact pairKey_ne hvp hs32 hnn.symm
    refine mem_nomerge h1 hq0mem (List.mem_cons_self _ _) hne0 ?_
    show Mergeable q0.2 vp
    rw [heq]
    exact mergeable_sib hvp hs32
  · -- a strictly larger member contains the sibling, hence the parent,
    -- hence it overlaps the head: contradiction with disjointness
    have hPin0 : q0.2.containsCidr (parentB vp) = true :=
      contains_parent_of_child hvq0 hvp hs32 (by omega) (Or.inr hq0c)
    have hne0 : q0 ≠ (kp, vp) := by
      intro habs
      apply hq0sz
      rw [habs]
    have hd : hiR q0.2 < loR vp ∨ hiR vp < loR q0.2 :=
        mem_disjoint h1 hq0mem (List.mem_cons_self _ _) hne0
    have hq0lo : memA q0.2 (loR vp) := by
      refine contains_mem hvq0 (ValidB_parentB hvp hs32) hPin0 ?_
      exact (parent_covers hvp hs32 (loR vp)).mpr (Or.inl memA_loR)
    have hvv := loR_le_hiR vp
    unfold memA at hq0lo
    omega

/-- Coverage outside the shared head of two equal-coverage maps transfers
between the tails. -/
theorem covers_tail_of {k : Nat} {v : Ipv4Cidr} {r1 r2 : CidrMap}
    (h1 : Inv ((k, v) :: r1)) (hcov : ∀ a, covers ((k, v) :: r1) a ↔
      covers ((k, v) :: r2) a)
    {a : Nat} (hc : covers r1 a) : covers r2 a := by
  obtain ⟨w, hw, hwa⟩ := hc
  have hb : hiR v < loR w.2 := (List.pairwise_cons.mp h1.below).1 w hw
  obtain ⟨w2, hw2, hw2a⟩ := (hcov a).mp ⟨w, List.mem_cons_of_mem _ hw, hwa⟩
  rcases List.mem_cons.mp hw2 with heq | hw22
  · exfalso
    have hm2 : memA v a := by
      rw [heq] at hw2a
      exact hw2a
    unfold memA at hm2 hwa
    omega
  · exact ⟨w2, hw22, hw2a⟩

/-- Canonicity: two invariant maps covering exactly the same addresses are
equal as sorted entry lists (hence as `BTreeMap`s). -/
theorem covers_canonical :
    ∀ (m1 m2 : CidrMap), Inv m1 → Inv m2 → (∀ a, covers m1 a ↔ covers m2 a) →
    m1 = m2 := by
  intro m1
  induction m1 with
  | nil =>
    intro m2 h1 h2 hcov
    cases m2 with
    | nil => rfl
    | cons q r2 =>
      exfalso
      exact covers_nil _ ((hcov (loR q.2)).mpr ⟨q, List.mem_cons_self _ _, memA_loR⟩)
  | cons p r1 ih =>
    intro m2 h1 h2 hcov
    obtain ⟨kp, vp⟩ := p
    cases m2 with
    | nil =>
      exfalso
      exact covers_nil _ ((hcov (loR vp)).mp
        ⟨(kp, vp), List.mem_cons_self _ _, memA_loR⟩)
    | cons q r2 =>
      obtain ⟨kq, vq⟩ := q
      have hvp : ValidB vp := (h1.entryOk _ (List.mem_cons_self _ _)).1
      have hvq : ValidB vq := (h2.entryOk _ (List.mem_cons_self _ _)).1
      have hkp : kp = vp.net := (h1.entryOk _ (List.mem_cons_self _ _)).2
      have hkq : kq = vq.net := (h2.entryOk _ (List.mem_cons_self _ _)).2
      have hlo : loR vp = loR vq := by
        have hc1 : covers ((kq, vq) :: r2) (loR vp) :=
          (hcov _).mp ⟨(kp, vp), List.mem_cons_self _ _, memA_loR⟩
        have hc2 : covers ((kp, vp) :: r1) (loR vq) :=
          (hcov _).mpr ⟨(kq, vq), List.mem_cons_self _ _, memA_loR⟩
        have g1 := head_min h2 hc1
        have g2 := head_min h1 hc2
        omega
      have hsz : vp.size = vq.size := by
        have hn1 := head_not_lt h1 h2 hcov hlo
        have hn2 := head_not_lt h2 h1 (fun a => (hcov a).symm) hlo.symm
        omega
      have hnet : vp.net = vq.net := by
        rw [loR_eq hvp, loR_eq hvq] at hlo
        exact hlo
      have hvpq : vp = vq := block_ext hnet hsz
      subst hvpq
      have hkpq : kp = kq := by rw [hkp, hkq]
      subst hkpq
      have ht12 : ∀ a, covers r1 a ↔ covers r2 a := fun a =>
        ⟨covers_tail_of h1 hcov, covers_tail_of h2 (fun b => (hcov b).symm)⟩
      rw [ih r2 h1.tail h2.tail ht12]

/-! ## Further consequences -/

/-- When some member other than `c` itself contains `c`, `insert` is a
no-op that reports `false`: the sweep deletes nothing and the containment
check hits. -/
theorem insert_of_contained {m : CidrMap} (hm : Inv m) {c : Ipv4Cidr}
    (hc : ValidB c) {p : Nat × Ipv4Cidr} (hp : p ∈ m)
    (hcont : p.2.containsCidr c = true) (hne : p.2 ≠ c) :
    insert m c = (false, m) := by
  obtain ⟨hdi1, hdi2, hdi3, hdi4⟩ := deleteInRange_spec hm hc
  have hvp := (hm.entryOk p hp).1
  have hflagF : (deleteInRange m c).1 = false := by
    refine hdi3.mpr ?_
    intro q hq hqc
    have hvq := (hm.entryOk q hq).1
    by_cases hpq : q = p
    · subst hpq
      exact hne (contains_antisymm hvp hc hcont hqc)
    · have hd := mem_disjoint hm hq hp hpq
      have h1 := (contains_iff hc hvq).mp hqc
      have h2 := (contains_iff hvp hc).mp hcont
      have h3 := loR_le_hiR q.2
      have h4 := loR_le_hiR c
      omega
  have hm1 : (deleteInRange m c).2 = m := hdi4 hflagF
  have hcontL : Ipv4CidrList.containsCidr (deleteInRange m c).2 c = true := by
    rw [hm1]
    exact (containsCidrL_iff hm hc).mpr ⟨p, hp, hcont⟩
  show (if Ipv4CidrList.containsCidr (deleteInRange m c).2 c = true then
      ((false : Bool), (deleteInRange m c).2)
    else (true, insertLoop (deleteInRange m c).2 c)) = (false, m)
  rw [if_pos hcontL, hm1]

/-- `to_range`'s coalescing walk over an invariant map covering exactly the
contiguous range `f.2 + 1 .. hi` merges everything into the accumulator. -/
theorem toRangeGo_chain :
    ∀ (rest : CidrMap) (f : Nat × Nat) (hi : Nat), Inv rest →
      (∀ a, covers rest a ↔ f.2 + 1 ≤ a ∧ a ≤ hi) → f.2 ≤ hi →
      toRangeGo f rest = [(f.1, hi)] := by
  intro rest
  induction rest with
  | nil =>
    intro f hi hI hcov hle
    have hfe : f.2 = hi := by
      by_contra hne
      exact covers_nil _ ((hcov (f.2 + 1)).mpr (by omega))
    show [f] = [(f.1, hi)]
    rw [← hfe, Prod.mk.eta]
  | cons p rest2 ih =>
    intro f hi hI hcov hle
    obtain ⟨k2, c2⟩ := p
    have hvc2 : ValidB c2 := (hI.entryOk _ (List.mem_cons_self _ _)).1
    have hlh := loR_le_hiR c2
    have hlo2 : loR c2 = f.2 + 1 := by
      have h1 := (hcov (loR c2)).mp ⟨(k2, c2), List.mem_cons_self _ _, memA_loR⟩
      have h2 : covers ((k2, c2) :: rest2) (f.2 + 1) :=
        (hcov (f.2 + 1)).mpr (by omega)
      have h3 := head_min hI h2
      omega
    have hhi2 : hiR c2 ≤ hi :=
      ((hcov (hiR c2)).mp ⟨(k2, c2), List.mem_cons_self _ _, memA_hiR⟩).2
    have hcov2 : ∀ a, covers rest2 a ↔ hiR c2 + 1 ≤ a ∧ a ≤ hi := by
      intro a
      constructor
      · rintro ⟨w, hw, hwa⟩
        have hb : hiR c2 < loR w.2 := (List.pairwise_cons.mp hI.below).1 w hw
        have h4 := (hcov a).mp ⟨w, List.mem_cons_of_mem _ hw, hwa⟩
        unfold memA at hwa
        omega
      · intro ha
        obtain ⟨w, hw, hwa⟩ := (hcov a).mpr (by omega)
        rcases List.mem_cons.mp hw with rfl | hw2
        · exfalso
          have hm2 : memA c2 a := hwa
          unfold memA at hm2
          omega
        · exact ⟨w, hw2, hwa⟩
    have hcnd : c2.toRange.1 = f.2 + 1 := hlo2
    have hstep : toRangeGo f ((k2, c2) :: rest2) =
        toRangeGo (f.1, c2.toRange.2) rest2 := by
      show (if c2.toRange.1 = f.2 + 1 then toRangeGo (f.1, c2.toRange.2) rest2
            else f :: toRangeGo f rest2) = toRangeGo (f.1, c2.toRange.2) rest2
      rw [if_pos hcnd]
    rw [hstep]
    exact ih (f.1, c2.toRange.2) hi hI.tail hcov2 hhi2

/-- `from_range` followed by the `to_range` walk reports the single input
range. -/
theorem toRangeList_fromRange {lo hi : Nat} (hle : lo ≤ hi)
    (hhi : hi < 2 ^ 32) : toRangeList (fromRange lo hi) = [(lo, hi)] := by
  obtain ⟨hI, hC⟩ := fromRange_spec lo hi hhi
  cases hfr : fromRange lo hi with
  | nil =>
    exfalso
    have h2 : covers (fromRange lo hi) lo := (hC lo).mpr ⟨le_refl _, hle⟩
    rw [hfr] at h2
    exact covers_nil _ h2
  | cons p rest =>
    obtain ⟨k1, c1⟩ := p
    rw [hfr] at hI hC
    have hvc1 : ValidB c1 := (hI.entryOk _ (List.mem_cons_self _ _)).1
    have hlh := loR_le_hiR c1
    have hlo1 : loR c1 = lo := by
      have h1 := (hC (loR c1)).mp ⟨(k1, c1), List.mem_cons_self _ _, memA_loR⟩
      have h2 : covers ((k1, c1) :: rest) lo := (hC lo).mpr ⟨le_refl _, hle⟩
      have h3 := head_min hI h2
      omega
    have hhi1 : hiR c1 ≤ hi :=
      ((hC (hiR c1)).mp ⟨(k1, c1), List.mem_cons_self _ _, memA_hiR⟩).2
    have hcovr : ∀ a, covers rest a ↔ hiR c1 + 1 ≤ a ∧ a ≤ hi := by
      intro a
      constructor
      · rintro ⟨w, hw, hwa⟩
        have hb : hiR c1 < loR w.2 := (List.pairwise_cons.mp hI.below).1 w hw
        have h4 := (hC a).mp ⟨w, List.mem_cons_of_mem _ hw, hwa⟩
        unfold memA at hwa
        omega
      · intro ha
        obtain ⟨w, hw, hwa⟩ := (hC a).mpr (by omega)
        rcases List.mem_cons.mp hw with rfl | hw2
        · exfalso
          have hm2 : memA c1 a := hwa
          unfold memA at hm2
          omega
        · exact ⟨w, hw2, hwa⟩
    show toRangeGo c1.toRange rest = [(lo, hi)]
    have h5 : toRangeGo c1.toRange rest = [(c1.toRange.1, hi)] :=
      toRangeGo_chain rest c1.toRange hi hI.tail hcovr hhi1
    rw [h5]
    have h6 : c1.toRange.1 = lo := hlo1
    rw [h6]

/-- The fueled bit-skip loop agrees with the total one whenever the fuel
exceeds the remaining levels. -/
theorem spSkipF_spec : ∀ (fuel net size : Nat), 32 - size < fuel →
    spSkipF fuel net size = spSkip net size := by
  intro fuel
  induction fuel with
  | zero =>
    intro net size h
    exact absurd h (by omega)
  | succ fuel ih =>
    intro net size h
    rw [spSkipF, spSkip]
    by_cases h1 : net &&& 1 = 0
    · rw [if_pos h1, if_pos h1]
      by_cases h2 : 32 ≤ size + 1
      · rw [if_pos h2, if_pos h2]
      · rw [if_neg h2, if_neg h2]
        exact ih (net >>> 1) (size + 1) (by omega)
    · rw [if_neg h1, if_neg h1]

/-- 33 iterations of fuel always suffice for the `search_parent` climb:
the fueled mirror never runs dry and agrees with the total function. -/
theorem spGoFuel_spec :
    ∀ (fuel : Nat) (m : CidrMap) (net size : Nat), 32 - size < fuel →
      spGoFuel fuel m net size = some (searchParentGo m net size) := by
  intro fuel
  induction fuel with
  | zero =>
    intro m net size h
    exact absurd h (by omega)
  | succ fuel ih =>
    intro m net size h
    rw [spGoFuel]
    cases hk : kfind m net with
    | some v =>
      simp only [hk]
      rw [spSkipF_spec 33 (net >>> size) size (by omega)]
      by_cases h1 : size ≤ v.size
      · have hgo : searchParentGo m net size = some v := by
          rw [searchParentGo]
          simp only [hk]
          rw [if_pos h1]
        rw [hgo, if_pos h1]
      · by_cases h2 : (32:Nat) ≤ size
        · have hgo : searchParentGo m net size = none := by
            rw [searchParentGo]
            simp only [hk]
            rw [if_neg h1, if_pos h2]
          rw [hgo, if_neg h1, if_pos h2]
        · cases hsp : spSkip (net >>> size) size with
          | none =>
            have hgo : searchParentGo m net size = none := by
              rw [searchParentGo]
              simp only [hk]
              rw [if_neg h1, if_neg h2]
              split
              · rfl
              · rename_i n s hsp2
                rw [hsp] at hsp2
                cases hsp2
            rw [hgo, if_neg h1, if_neg h2]
          | some p =>
            obtain ⟨n, s⟩ := p
            have hb := spSkip_bounds (net >>> size) size n s (by omega) hsp
            have hgo : searchParentGo m net size =
                searchParentGo m ((n - 1) <<< s) (s + 1) := by
              rw [searchParentGo]
              simp only [hk]
              rw [if_neg h1, if_neg h2]
              split
              · rename_i hsp2
                rw [hsp] at hsp2
                cases hsp2
              · rename_i n' s' hsp2
                rw [hsp] at hsp2
                injection hsp2 with h5
                injection h5 with h6 h7
                subst h6
                subst h7
                rfl
            rw [hgo, if_neg h1, if_neg h2]
            exact ih m ((n - 1) <<< s) (s + 1) (by omega)
    | none =>
      simp only [hk]
      rw [spSkipF_spec 33 (net >>> size) size (by omega)]
      by_cases h2 : (32:Nat) ≤ size
      · have hgo : searchParentGo m net size = none := by
          rw [searchParentGo]
          simp only [hk]
          rw [if_pos h2]
        rw [hgo, if_pos h2]
      · cases hsp : spSkip (net >>> size) size with
        | none =>
          have hgo : searchParentGo m net size = none := by
            rw [searchParentGo]
            simp only [hk]
            rw [if_neg h2]
            split
            · rfl
            · rename_i n s hsp2
              rw [hsp] at hsp2
              cases hsp2
          rw [hgo, if_neg h2]
        | some p =>
          obtain ⟨n, s⟩ := p
          have hb := spSkip_bounds (net >>> size) size n s (by omega) hsp
          have hgo : searchParentGo m net size =
              searchParentGo m ((n - 1) <<< s) (s + 1) := by
            rw [searchParentGo]
            simp only [hk]
            rw [if_neg h2]
            split
            · rename_i hsp2
              rw [hsp] at hsp2
              cases hsp2
            · rename_i n' s' hsp2
              rw [hsp] at hsp2
              injection hsp2 with h5
              injection h5 with h6 h7
              subst h6
              subst h7
              rfl
          rw [hgo, if_neg h2]
          exact ih m ((n - 1) <<< s) (s + 1) (by omega)

/-- Derive the value of a `search_parent` call from its fueled mirror. -/
theorem searchParent_eval {m : CidrMap} {c : Ipv4Cidr} {r : Option Ipv4Cidr}
    (h : spGoFuel 33 m c.net c.size = some r) : searchParent m c = r := by
  have h2 := spGoFuel_spec 33 m c.net c.size (by omega)
  rw [h] at h2
  injection h2 with h3
  exact h3.symm

/-! ## The make constructor: size, validity, nesting of masks -/

theorem make_size {a k : Nat} (h1 : 1 ≤ k) :
    (Ipv4Cidr.make a k).size = 32 - k := by
  unfold Ipv4Cidr.make
  rw [if_neg (by omega)]
  by_cases hk32 : k < 32
  · rw [if_pos hk32]
  · rw [if_neg hk32]

/-- Every block produced by `Ipv4Cidr::new` from a `u32` address and an
accepted mask is valid. -/
theorem ValidB_make {a mask : Nat} (ha : a < 2 ^ 32) (hm : mask ≤ 32) :
    ValidB (Ipv4Cidr.make a mask) := by
  unfold Ipv4Cidr.make
  by_cases h0 : mask = 0
  · rw [if_pos h0]
    refine ⟨le_refl _, ?_, by simp⟩
    show (0:Nat) < 2 ^ 32
    omega
  · rw [if_neg h0]
    by_cases h1 : mask < 32
    · rw [if_pos h1]
      refine ⟨?_, ?_, ?_⟩
      · show 32 - mask ≤ 32
        omega
      · show (a >>> (32 - mask)) <<< (32 - mask) < 2 ^ 32
        rw [shiftr_eq, shiftl_eq]
        have h2 : a / 2 ^ (32 - mask) * 2 ^ (32 - mask) ≤ a :=
          Nat.div_mul_le_self _ _
        omega
      · show ((a >>> (32 - mask)) <<< (32 - mask)) % 2 ^ (32 - mask) = 0
        rw [shiftr_eq, shiftl_eq]
        exact Nat.mul_mod_left _ _
    · rw [if_neg h1]
      refine ⟨?_, ha, ?_⟩
      · show 32 - mask ≤ 32
        omega
      · show a % 2 ^ (32 - mask) = 0
        have h2 : mask = 32 := by omega
        rw [h2]
        norm_num
        omega

/-- Aligning to a coarser level after aligning to a finer one is the same
as aligning once. -/
theorem baseAt_shiftr_le (c0 : Nat) {s t : Nat} (hst : s ≤ t) :
    baseAt c0 s >>> t = c0 >>> t := by
  have h2 : baseAt c0 s = c0 / 2 ^ s * 2 ^ s := by
    unfold baseAt
    rw [shiftr_eq, shiftl_eq]
  rw [h2, shiftr_eq, shiftr_eq]
  rw [← div_pow_compose hst, Nat.mul_div_cancel _ (pow_pos2 s),
    div_pow_compose hst]

/-- The mask-`k` block of an address lies inside its mask-1 block. -/
theorem make_one_contains {a : Nat} (k : Nat) (h1 : 1 ≤ k) (h32 : k ≤ 32) :
    (Ipv4Cidr.make a 1).containsCidr (Ipv4Cidr.make a k) = true := by
  have hu2 : (Ipv4Cidr.make a 1).size = 31 := rfl
  have hu3 : (Ipv4Cidr.make a 1).net = (a >>> 31) <<< 31 := rfl
  have hbsize : (Ipv4Cidr.make a k).size = 32 - k := make_size h1
  have hbnet : (Ipv4Cidr.make a k).net >>> 31 = a >>> 31 := by
    unfold Ipv4Cidr.make
    rw [if_neg (by omega)]
    by_cases hk32 : k < 32
    · rw [if_pos hk32]
      exact baseAt_shiftr_le a (by omega)
    · rw [if_neg hk32]
  unfold Ipv4Cidr.containsCidr
  rw [hu2, hu3, hbsize]
  rw [if_neg (by omega), if_neg (by omega), beq_iff_eq, hbnet]
  exact baseAt_shiftr a 31

/-- Coverage of a one-entry map. -/
theorem covers_single {k : Nat} {c : Ipv4Cidr} (a : Nat) :
    covers [(k, c)] a ↔ memA c a := by
  constructor
  · rintro ⟨p, hp, hma⟩
    rcases List.mem_singleton.mp hp with rfl
    exact hma
  · intro h
    exact ⟨(k, c), List.mem_singleton.mpr rfl, h⟩

/-- Inserting blocks that are already strictly covered never changes the
map. -/
theorem foldl_insert_noop {M : CidrMap} (hM : Inv M) (g : Nat → Ipv4Cidr) :
    ∀ l : List Nat,
      (∀ i ∈ l, ∃ p ∈ M, p.2.containsCidr (g i) = true ∧ p.2 ≠ g i ∧
        ValidB (g i)) →
      l.foldl (fun m i => (insert m (g i)).2) M = M := by
  intro l
  induction l with
  | nil =>
    intro _
    rfl
  | cons i rest ih =>
    intro hyp
    obtain ⟨p, hp, hcont, hne, hv⟩ := hyp i (List.mem_cons_self _ _)
    simp only [List.foldl_cons]
    rw [insert_of_contained hM hv hp hcont hne]
    exact ih (fun j hj => hyp j (List.mem_cons_of_mem _ hj))

/-- Inserting all 32 mask lengths of one address leaves exactly the mask-1
half-space block, not the universal block: every later, smaller block is
already covered by the first insert and is refused. -/
theorem insert_all_masks {a : Nat} (ha : a < 2 ^ 32) :
    (List.range 32).foldl
      (fun m i => (insert m (Ipv4Cidr.make a (i + 1))).2) [] =
      [(((a >>> 31) <<< 31 : Nat), (⟨(a >>> 31) <<< 31, 31⟩ : Ipv4Cidr))] := by
  have hc1v : ValidB (Ipv4Cidr.make a 1) := ValidB_make ha (by omega)
  have hM : Inv [((Ipv4Cidr.make a 1).net, Ipv4Cidr.make a 1)] := by
    refine ⟨?_, by simp, by simp⟩
    intro p hp
    rcases List.mem_singleton.mp hp with rfl
    exact ⟨hc1v, rfl⟩
  obtain ⟨hI1, hC1, _⟩ := insert_spec Inv_nil hc1v
  have hfirst : (insert [] (Ipv4Cidr.make a 1)).2 =
      [((Ipv4Cidr.make a 1).net, Ipv4Cidr.make a 1)] := by
    refine covers_canonical _ _ hI1 hM ?_
    intro x
    rw [hC1 x, covers_single]
    constructor
    · rintro (h | h)
      · exact absurd h (covers_nil x)
      · exact h
    · exact fun h => Or.inr h
  have hcond : ∀ j ∈ List.range 31,
      ∃ p ∈ [((Ipv4Cidr.make a 1).net, Ipv4Cidr.make a 1)],
        p.2.containsCidr (Ipv4Cidr.make a (Nat.succ j + 1)) = true ∧
        p.2 ≠ Ipv4Cidr.make a (Nat.succ j + 1) ∧
        ValidB (Ipv4Cidr.make a (Nat.succ j + 1)) := by
    intro j hj
    have hjlt : j < 31 := List.mem_range.mp hj
    refine ⟨_, List.mem_singleton.mpr rfl, ?_, ?_, ?_⟩
    · exact make_one_contains (Nat.succ j + 1) (by omega) (by omega)
    · intro habs
      have habs2 : Ipv4Cidr.make a 1 = Ipv4Cidr.make a (Nat.succ j + 1) := habs
      have e1 : (Ipv4Cidr.make a 1).size = 31 := rfl
      have e2 : (Ipv4Cidr.make a (Nat.succ j + 1)).size = 32 - (Nat.succ j + 1) :=
        make_size (by omega)
      rw [habs2] at e1
      omega
    · exact ValidB_make ha (by omega)
  have h32 : (32:Nat) = 31 + 1 := rfl
  rw [h32, List.range_succ_eq_map]
  simp only [List.foldl_cons, List.foldl_map, Nat.zero_add]
  rw [hfirst]
  exact foldl_insert_noop hM (fun j => Ipv4Cidr.make a (Nat.succ j + 1))
    (List.range 31) hcond

/-- The fueled merge loop agrees with the total one whenever the fuel
exceeds the remaining levels. -/
theorem insertLoopF_spec : ∀ (fuel : Nat) (m : CidrMap) (c : Ipv4Cidr),
    32 - c.size < fuel → insertLoopF fuel m c = some (insertLoop m c) := by
  intro fuel
  induction fuel with
  | zero =>
    intro m c h
    exact absurd h (by omega)
  | succ fuel ih =>
    intro m c h
    rw [insertLoopF, insertLoop]
    by_cases h1 : c.size < 32
    · rw [if_pos h1, if_pos h1]
      cases hk : kfind m (Ipv4CidrList.pairKey c) with
      | none => simp only [hk]
      | some v =>
        simp only [hk]
        by_cases h2 : v.size = c.size
        · rw [if_pos h2, if_pos h2]
          refine ih _ _ ?_
          have hsz : c.size + 1 ≤
              (Ipv4Cidr.make (Ipv4CidrList.pairKey c) (31 - c.size)).size := by
            by_cases h3 : c.size = 31
            · have h4 : 31 - c.size = 0 := by omega
              rw [h4]
              have h5 : (Ipv4Cidr.make (Ipv4CidrList.pairKey c) 0).size = 32 := rfl
              omega
            · have h4 : 1 ≤ 31 - c.size := by omega
              rw [make_size h4]
              omega
          omega
        · rw [if_neg h2, if_neg h2]
    · rw [if_neg h1, if_neg h1]

/-- Derive the value of the merge loop from its fueled mirror. -/
theorem insertLoop_eval {m : CidrMap} {c : Ipv4Cidr} {r : CidrMap}
    (h : insertLoopF 33 m c = some r) : insertLoop m c = r := by
  have h2 := insertLoopF_spec 33 m c (by omega)
  rw [h] at h2
  injection h2 with h3
  exact h3.symm

/-- One-step unfolding of `insert`. -/
theorem insert_eq (m : CidrMap) (c : Ipv4Cidr) :
    insert m c =
      if Ipv4CidrList.containsCidr (deleteInRange m c).2 c then
        (false, (deleteInRange m c).2)
      else (true, insertLoop (deleteInRange m c).2 c) := rfl

/-- Evaluate an `insert` whose containment probe misses. -/
theorem insert_eval {m m1 : CidrMap} {c : Ipv4Cidr} {r : CidrMap}
    (hd : (deleteInRange m c).2 = m1)
    (hsp : searchParent m1 c = none)
    (hil : insertLoop m1 c = r) :
    insert m c = (true, r) := by
  rw [insert_eq, hd]
  have hcc : Ipv4CidrList.containsCidr m1 c = false := by
    unfold Ipv4CidrList.containsCidr
    rw [hsp]
    rfl
  rw [hcc, hil]
  rfl

/-- Evaluate a `remove` whose step-1 sweep already deleted something. -/
theorem remove_eval_swept {m : CidrMap} {c : Ipv4Cidr}
    (hd : (deleteInRange m c).1 = true) :
    remove m c = (true, (deleteInRange m c).2) := by
  rw [remove_eq, if_pos hd]

/-- Evaluate a `remove` that finds nothing at all: it still reports
`true`. -/
theorem remove_eval_miss {m : CidrMap} {c : Ipv4Cidr}
    (hd : deleteInRange m c = (false, m))
    (hsp : searchParent m c = none) :
    remove m c = (true, m) := by
  rw [remove_eq, hd, show ((false, m) : Bool × CidrMap).2 = m from rfl, hsp]
  rfl

/-- The one-address range builds the one-address block. -/
theorem fromRange_zero : fromRange 0 0 = [(0, (⟨0, 0⟩ : Ipv4Cidr))] := by
  obtain ⟨hI, hC⟩ := fromRange_spec 0 0 (by norm_num)
  refine covers_canonical _ _ hI (by decide) ?_
  intro x
  rw [hC x, covers_single]
  unfold memA loR hiR Ipv4Cidr.toRange
  norm_num

/-- Inserting the two-address block into the empty set. -/
theorem insert_nil_01 : insert [] (⟨0, 1⟩ : Ipv4Cidr) = (true, [(0, ⟨0, 1⟩)]) :=
  insert_eval rfl (searchParent_eval (by decide)) (insertLoop_eval (by decide))

/-- Removing the two-address block from the one-address set deletes the
member. -/
theorem remove_fr_eval :
    remove (fromRange 0 0) (⟨0, 1⟩ : Ipv4Cidr) = (true, []) := by
  rw [fromRange_zero]
  have hd : (deleteInRange [(0, (⟨0, 0⟩ : Ipv4Cidr))] ⟨0, 1⟩).1 = true := by decide
  rw [remove_eval_swept hd]
  rfl

/-! ## The claims -/

/-- C1: on any set satisfying the three invariants, both `insert` and
`remove` of any valid block return sets again satisfying all three
invariants. -/
theorem claim_C1 {m : CidrMap} (hm : Inv m) {c : Ipv4Cidr} (hc : ValidB c) :
    Inv (insert m c).2 ∧ Inv (remove m c).2 :=
  ⟨(insert_spec hm hc).1, (remove_spec hm hc).1⟩

theorem claim_C1_witness :
    Inv ([] : CidrMap) ∧ ValidB ⟨0, 0⟩ ∧
      Inv (insert [] (⟨0, 0⟩ : Ipv4Cidr)).2 ∧
      Inv (remove [] (⟨0, 0⟩ : Ipv4Cidr)).2 :=
  ⟨by decide, by decide, claim_C1 (by decide) (by decide)⟩

/-- C2 (corrected): `remove` never reports `false` on an invariant map
with a valid argument — it reports `true` even when nothing overlapped
the block and the set is returned unchanged, so the reported flag is not
`true iff the member content changed` and the spec's `false` answer after
a fruitless `SearchParent` does not occur. -/
theorem claim_C2 {m : CidrMap} (hm : Inv m) {c : Ipv4Cidr} (hc : ValidB c) :
    (remove m c).1 = true ∧
    ((remove m c).2 = m ↔ ∀ p ∈ m, hiR p.2 < loR c ∨ hiR c < loR p.2) :=
  ⟨(remove_spec hm hc).2.2.1, (remove_spec hm hc).2.2.2⟩

theorem claim_C2_witness :
    Inv ([] : CidrMap) ∧ ValidB ⟨0, 0⟩ ∧
    (remove ([] : CidrMap) (⟨0, 0⟩ : Ipv4Cidr)).1 = true ∧
    ((remove ([] : CidrMap) (⟨0, 0⟩ : Ipv4Cidr)).2 = [] ↔
      ∀ p ∈ ([] : CidrMap), hiR p.2 < loR ⟨0, 0⟩ ∨ hiR ⟨0, 0⟩ < loR p.2) :=
  ⟨by decide, by decide, claim_C2 (by decide) (by decide)⟩

/-- C2 counterexample: on the empty set `search_parent` finds nothing and
nothing is deleted, yet `remove` reports `true` with the set unchanged —
never the `false` the spec requires for that case. -/
theorem claim_C2_counterexample :
    Inv ([] : CidrMap) ∧ ValidB ⟨0, 32⟩ ∧
    searchParent ([] : CidrMap) ⟨0, 32⟩ = none ∧
    remove ([] : CidrMap) (⟨0, 32⟩ : Ipv4Cidr) = (true, []) :=
  ⟨by decide, by decide, searchParent_eval (by decide),
   remove_eval_miss (by decide) (searchParent_eval (by decide))⟩

/-- C3 (code bug): inserting a block that is already literally a member
reports `true` although the member content is unchanged — the sweep
deletes the member and the merge loop re-adds it, so `insert` claims a
change that did not happen, contradicting `true iff the content
changed`. -/
theorem claim_C3 :
    Inv [(0, (⟨0, 0⟩ : Ipv4Cidr))] ∧ ValidB ⟨0, 0⟩ ∧
    Ipv4CidrList.insert [(0, (⟨0, 0⟩ : Ipv4Cidr))] ⟨0, 0⟩ =
      (true, [(0, ⟨0, 0⟩)]) :=
  ⟨by decide, by decide,
   insert_eval rfl (searchParent_eval (by decide)) (insertLoop_eval (by decide))⟩

/-- C4: `search_parent` answers `some` exactly when some member equals or
strictly contains the block, and any member it returns is such an
equal-or-ancestor member. -/
theorem claim_C4 {m : CidrMap} (hm : Inv m) {c : Ipv4Cidr} (hc : ValidB c) :
    ((searchParent m c).isSome ↔ ∃ p ∈ m, p.2.containsCidr c = true) ∧
    (∀ v, searchParent m c = some v →
      (v.net, v) ∈ m ∧ ValidB v ∧ v.containsCidr c = true) := by
  constructor
  · constructor
    · intro h
      obtain ⟨v, hv⟩ := Option.isSome_iff_exists.mp h
      obtain ⟨h1, h2, h3⟩ := searchParent_sound hm hc hv
      exact ⟨(v.net, v), h1, h3⟩
    · rintro ⟨p, hp, hpc⟩
      exact searchParent_complete hm hc hp hpc
  · intro v hv
    exact searchParent_sound hm hc hv

theorem claim_C4_witness :
    Inv [(0, (⟨0, 0⟩ : Ipv4Cidr))] ∧ ValidB ⟨0, 0⟩ ∧
    (((searchParent [(0, (⟨0, 0⟩ : Ipv4Cidr))] ⟨0, 0⟩).isSome ↔
       ∃ p ∈ [(0, (⟨0, 0⟩ : Ipv4Cidr))], p.2.containsCidr ⟨0, 0⟩ = true) ∧
     (∀ v, searchParent [(0, (⟨0, 0⟩ : Ipv4Cidr))] ⟨0, 0⟩ = some v →
       (v.net, v) ∈ [(0, (⟨0, 0⟩ : Ipv4Cidr))] ∧ ValidB v ∧
         v.containsCidr ⟨0, 0⟩ = true)) :=
  ⟨by decide, by decide, claim_C4 (by decide) (by decide)⟩

/-- C5: for `low ≤ high` within the `u32` space, building a set from the
range and exporting it with the coalescing walk returns exactly the one
input range. -/
theorem claim_C5 {lo hi : Nat} (hle : lo ≤ hi) (hhi : hi < 2 ^ 32) :
    toRangeList (fromRange lo hi) = [(lo, hi)] :=
  toRangeList_fromRange hle hhi

theorem claim_C5_witness :
    (0:Nat) ≤ 0 ∧ (0:Nat) < 2 ^ 32 ∧
    toRangeList (fromRange 0 0) = [(0, 0)] :=
  ⟨le_refl _, by norm_num, claim_C5 (le_refl _) (by norm_num)⟩

/-- C6 (corrected): removing a block and re-inserting it does not restore
the original set; what does hold on every invariant set is that
re-inserting after the removal gives the same set as inserting into the
original — in both cases exactly the block's addresses are added. -/
theorem claim_C6 {m : CidrMap} (hm : Inv m) {b : Ipv4Cidr} (hb : ValidB b)
    (hchg : (remove m b).1 = true) :
    (insert (remove m b).2 b).2 = (insert m b).2 := by
  obtain ⟨hI1, hC1, _, _⟩ := remove_spec hm hb
  obtain ⟨hI2, hC2, _⟩ := insert_spec hI1 hb
  obtain ⟨hI3, hC3, _⟩ := insert_spec hm hb
  refine covers_canonical _ _ hI2 hI3 ?_
  intro x
  rw [hC2 x, hC3 x, hC1 x]
  by_cases hx : memA b x
  · simp [hx]
  · simp [hx]

theorem claim_C6_witness :
    Inv ([] : CidrMap) ∧ ValidB ⟨0, 32⟩ ∧
    (remove ([] : CidrMap) (⟨0, 32⟩ : Ipv4Cidr)).1 = true ∧
    (insert (remove ([] : CidrMap) (⟨0, 32⟩ : Ipv4Cidr)).2 ⟨0, 32⟩).2 =
      (insert ([] : CidrMap) (⟨0, 32⟩ : Ipv4Cidr)).2 :=
  ⟨by decide, by decide,
   by rw [remove_eval_miss (by decide) (searchParent_eval (by decide))],
   claim_C6 (by decide) (by decide)
     (by rw [remove_eval_miss (by decide) (searchParent_eval (by decide))])⟩

/-- C6 counterexample: from the set for the range `0..0`, removing the
two-address block `0.0.0.0/31` reports a change, but re-inserting that
block yields the two-address set, not the original one-address set. -/
theorem claim_C6_counterexample :
    ValidB ⟨0, 1⟩ ∧
    (remove (fromRange 0 0) (⟨0, 1⟩ : Ipv4Cidr)).1 = true ∧
    (insert (remove (fromRange 0 0) (⟨0, 1⟩ : Ipv4Cidr)).2 ⟨0, 1⟩).2 ≠
      fromRange 0 0 := by
  refine ⟨by decide, by rw [remove_fr_eval], ?_⟩
  rw [remove_fr_eval, show ((true, ([] : CidrMap)) : Bool × CidrMap).2 = []
    from rfl, insert_nil_01, fromRange_zero]
  decide

/-- C7 (corrected): inserting all 32 mask lengths of one base address into
the empty set does collapse to exactly one member block, but it is the
mask-1 half-space block of size 31, not the size-32 universal block: the
first insert covers all later ones, which are refused unchanged. -/
theorem claim_C7 {a : Nat} (ha : a < 2 ^ 32) :
    (List.range 32).foldl
      (fun m i => (insert m (Ipv4Cidr.make a (i + 1))).2) [] =
      [(((a >>> 31) <<< 31 : Nat), (⟨(a >>> 31) <<< 31, 31⟩ : Ipv4Cidr))] :=
  insert_all_masks ha

theorem claim_C7_witness :
    (0:Nat) < 2 ^ 32 ∧
    (List.range 32).foldl
      (fun m i => (insert m (Ipv4Cidr.make 0 (i + 1))).2) [] =
      [(((0 >>> 31) <<< 31 : Nat), (⟨(0 >>> 31) <<< 31, 31⟩ : Ipv4Cidr))] :=
  ⟨by norm_num, claim_C7 (by norm_num)⟩

/-- C7 counterexample: for base address `0` the fold of all 32 masks
leaves the half-space block of size 31, which is not the size-32
universal block the spec promises. -/
theorem claim_C7_counterexample :
    (List.range 32).foldl
      (fun m i => (insert m (Ipv4Cidr.make 0 (i + 1))).2) [] =
      [(0, (⟨0, 31⟩ : Ipv4Cidr))] ∧
    [(0, (⟨0, 31⟩ : Ipv4Cidr))] ≠ [(0, (⟨0, 32⟩ : Ipv4Cidr))] := by
  constructor
  · exact @insert_all_masks 0 (by norm_num)
  · decide

/-- C8: `to_range` of any constructed block returns an ordered pair with
no `u32` overflow, covering exactly `2 ^ size` addresses when
`size < 32`, with the explicit full-range special case at `size = 32`. -/
theorem claim_C8 {a mask : Nat} (ha : a < 2 ^ 32) (hm : mask ≤ 32) :
    (Ipv4Cidr.make a mask).toRange.1 ≤ (Ipv4Cidr.make a mask).toRange.2 ∧
    (Ipv4Cidr.make a mask).toRange.2 < 2 ^ 32 ∧
    ((Ipv4Cidr.make a mask).size < 32 →
      (Ipv4Cidr.make a mask).toRange.2 - (Ipv4Cidr.make a mask).toRange.1 + 1 =
        2 ^ (Ipv4Cidr.make a mask).size) ∧
    ((Ipv4Cidr.make a mask).size = 32 →
      (Ipv4Cidr.make a mask).toRange = (0, 2 ^ 32 - 1)) := by
  have hv := ValidB_make ha hm
  have ht := toRange_eq hv
  have hhi := hiR_lt_top hv
  have hlo := loR_le_hiR (Ipv4Cidr.make a mask)
  refine ⟨hlo, hhi, ?_, ?_⟩
  · intro hs
    rw [ht]
    have hp := pow_pos2 (Ipv4Cidr.make a mask).size
    show (Ipv4Cidr.make a mask).net + (2 ^ (Ipv4Cidr.make a mask).size - 1) -
      (Ipv4Cidr.make a mask).net + 1 = 2 ^ (Ipv4Cidr.make a mask).size
    omega
  · intro hs
    unfold Ipv4Cidr.toRange
    rw [if_pos hs]

theorem claim_C8_witness :
    (0:Nat) < 2 ^ 32 ∧ (1:Nat) ≤ 32 ∧
    ((Ipv4Cidr.make 0 1).toRange.1 ≤ (Ipv4Cidr.make 0 1).toRange.2 ∧
     (Ipv4Cidr.make 0 1).toRange.2 < 2 ^ 32 ∧
     ((Ipv4Cidr.make 0 1).size < 32 →
       (Ipv4Cidr.make 0 1).toRange.2 - (Ipv4Cidr.make 0 1).toRange.1 + 1 =
         2 ^ (Ipv4Cidr.make 0 1).size) ∧
     ((Ipv4Cidr.make 0 1).size = 32 →
       (Ipv4Cidr.make 0 1).toRange = (0, 2 ^ 32 - 1))) :=
  ⟨by norm_num, by norm_num, claim_C8 (by norm_num) (by norm_num)⟩

/-- C9: both loops are bounded and total: 33 iterations of fuel always
complete the `search_parent` climb (the structural mirror agrees with the
function on every input), and 33 levels of recursion always complete the
`from_range` decomposition for any `u32` range. -/
theorem claim_C9 :
    (∀ (m : CidrMap) (c : Ipv4Cidr),
      spGoFuel 33 m c.net c.size = some (searchParent m c)) ∧
    (∀ lo hi : Nat, lo ≤ hi → hi < 2 ^ 32 → (buildFuel 33 lo hi []).isSome) := by
  constructor
  · intro m c
    exact spGoFuel_spec 33 m c.net c.size (by omega)
  · intro lo hi hle hhi
    have hcl : commonLevel lo hi ≤ 32 := commonLevel_le lo hi (by omega) hhi
    obtain ⟨r, hr, _, _⟩ := buildFuel_spec 33 lo hi [] hle hhi (by omega) Inv_nil
    rw [hr]
    rfl

theorem claim_C9_witness :
    spGoFuel 33 ([] : CidrMap) (0:Nat) (0:Nat) =
      some (searchParent [] ⟨0, 0⟩) ∧
    ((0:Nat) ≤ 0 ∧ (0:Nat) < 2 ^ 32 ∧ (buildFuel 33 0 0 []).isSome) :=
  ⟨claim_C9.1 [] ⟨0, 0⟩, le_refl _, by norm_num,
   claim_C9.2 0 0 (le_refl _) (by norm_num)⟩

/-- C10: a `false` answer from `insert` really means untouched: on an
invariant map the returned member content is exactly the content before
the call (the step-1 sweep cannot have deleted anything in that case). -/
theorem claim_C10 {m : CidrMap} (hm : Inv m) {c : Ipv4Cidr} (hc : ValidB c)
    (hf : (insert m c).1 = false) : (insert m c).2 = m :=
  (insert_spec hm hc).2.2 hf

theorem claim_C10_witness :
    Inv [(0, (⟨0, 1⟩ : Ipv4Cidr))] ∧ ValidB ⟨0, 0⟩ ∧
    (Ipv4CidrList.insert [(0, (⟨0, 1⟩ : Ipv4Cidr))] ⟨0, 0⟩).1 = false ∧
    (Ipv4CidrList.insert [(0, (⟨0, 1⟩ : Ipv4Cidr))] ⟨0, 0⟩).2 =
      [(0, (⟨0, 1⟩ : Ipv4Cidr))] := by
  have hins : Ipv4CidrList.insert [(0, (⟨0, 1⟩ : Ipv4Cidr))] ⟨0, 0⟩ =
      (false, [(0, (⟨0, 1⟩ : Ipv4Cidr))]) := by
    rw [insert_eq]
    have hd : (deleteInRange [(0, (⟨0, 1⟩ : Ipv4Cidr))] ⟨0, 0⟩).2 =
        [(0, (⟨0, 1⟩ : Ipv4Cidr))] := by decide
    rw [hd]
    have hsp : searchParent [(0, (⟨0, 1⟩ : Ipv4Cidr))] ⟨0, 0⟩ = some ⟨0, 1⟩ :=
      searchParent_eval (by decide)
    have hcc : Ipv4CidrList.containsCidr [(0, (⟨0, 1⟩ : Ipv4Cidr))] ⟨0, 0⟩ =
        true := by
      unfold Ipv4CidrList.containsCidr
      rw [hsp]
      rfl
    rw [hcc]
    rfl
  refine ⟨by decide, by decide, ?_, claim_C10 (by decide) (by decide) ?_⟩
  · rw [hins]
  · rw [hins]

end RustCidr
